import Mathlib

deriving instance DecidableEq for Except

/-!
Verification of the `ec` (easy-conflict) merge-conflict resolver core.

Bytes are embedded as `List Char` (the inputs of interest are text), lines
as `List Char` chunks that keep their `'\n'` terminator, mirroring the Go
helpers `splitLinesKeepEOL` (internal/markers) and `splitLines`
(internal/tui/render_helpers.go).
-/

set_option maxRecDepth 4000

namespace EC

/-- Bytes of a file, one Go `[]byte`. -/
abbrev Bytes := List Char

/-- One line of a file (terminator kept, as in the Go code). -/
abbrev Line := List Char

/-! ## Line splitting (markers package `splitLinesKeepEOL`) -/

/-- Worker for `splitLinesKeepEOL`: scans the bytes, emitting a line each time
a `'\n'` is passed, and the pending chunk (if nonempty) at the end — exactly
the scan in `splitLinesKeepEOL` of `src/unnamed/part_007`. -/
def splitGo : Bytes → Bytes → List Line
  | [], acc => if acc = [] then [] else [acc]
  | c :: cs, acc => if c = '\n' then (acc ++ ['\n']) :: splitGo cs [] else splitGo cs (acc ++ [c])

/-- Go `splitLinesKeepEOL`: split bytes into lines that keep their `'\n'`;
empty input yields no lines, a final unterminated chunk is kept. -/
def splitLinesKeepEOL (b : Bytes) : List Line := splitGo b []

/-- Concatenation of lines back into bytes (Go `joinLines`). -/
def joinLines (ls : List Line) : Bytes := ls.flatten

/-! ## Data model

The Go type declarations (`Document`, `Segment`, `TextSegment`,
`ConflictSegment`, `ConflictRef`, `Resolution`) live in a file that is not
part of the provided sources; they are modelled from the spec (§3) exactly as
instantiated by the parser, renderer, engine and TUI code that is provided. -/

/-- Modelled from the spec: the `Resolution` enum of a conflict —
`Unset, Ours, Theirs, Both, None` (missing `types.go` of internal/markers). -/
inductive Resolution
  | unset
  | ours
  | theirs
  | both
  | none
  deriving DecidableEq, Repr

/-- Modelled from the spec: a `ConflictSegment` — required `Ours`/`Theirs`
byte runs, optional `Base`, cosmetic labels, and a `Resolution`
(missing `types.go` of internal/markers). -/
structure ConflictSegment where
  Ours : Bytes
  Base : Bytes
  Theirs : Bytes
  OursLabel : List Char
  BaseLabel : List Char
  TheirsLabel : List Char
  Resolution : Resolution
  deriving DecidableEq, Repr

/-- Modelled from the spec: a `Segment` is a tagged union of an opaque text
byte run and a conflict (missing `types.go` of internal/markers). -/
inductive Segment
  | text (Bytes : Bytes)
  | conflict (seg : ConflictSegment)
  deriving DecidableEq, Repr

/-- Modelled from the spec: a `ConflictRef` holds the index of a
`ConflictSegment` inside `Document.Segments`. -/
structure ConflictRef where
  SegmentIndex : Nat
  deriving DecidableEq, Repr

/-- Modelled from the spec: a `Document` — ordered segments plus the parallel
conflict index (missing `types.go` of internal/markers). -/
structure Document where
  Segments : List Segment
  Conflicts : List ConflictRef
  deriving DecidableEq, Repr

/-! ## Marker parser (markers package `Parse`, src/unnamed/part_007) -/

/-- Marker prefixes from `src/unnamed/part_007`. -/
def markStart : List Char := "<<<<<<<".toList

/-- Base marker bytes. -/
def markBase : List Char := "|||||||".toList

/-- Mid (separator) marker bytes. -/
def markMid : List Char := "=======".toList

/-- End marker bytes. -/
def markEnd : List Char := ">>>>>>>".toList

/-- Go `hasLinePrefix`: the line starts with the 7-character marker. -/
def hasLineMarker (line : Line) (marker : List Char) : Bool :=
  marker.isPrefixOf line

/-- Go `strings.TrimSpace` on our byte lists: drop whitespace from both ends. -/
def trimChars (l : List Char) : List Char :=
  ((l.dropWhile Char.isWhitespace).reverse.dropWhile Char.isWhitespace).reverse

/-- Go `parseLabel`: text after the marker, trimmed of surrounding whitespace. -/
def parseLabel (line : Line) (marker : List Char) : List Char :=
  if hasLineMarker line marker then trimChars (line.drop marker.length) else []

/-- Distinguishable parse failures, one per error message of Go `Parse`:
`missing separator`, `missing ======= after base`, `missing end marker`,
`expected =======` (the last is an error branch of the source that is
unreachable, kept for fidelity). -/
inductive ParseError
  | missingSeparator
  | missingMidAfterBase
  | missingEnd
  | expectedMid
  deriving DecidableEq, Repr

/-- Parser position, as in the spec's state machine reading of `Parse`:
either accumulating text, or inside a conflict collecting the ours, base or
theirs section (each constructor carries what has been collected so far). -/
inductive MState
  | text (textAcc : Bytes)
  | ours (oursLabel : List Char) (ours : Bytes)
  | base (oursLabel : List Char) (ours : Bytes) (baseLabel : List Char) (base : Bytes)
  | theirs (oursLabel : List Char) (ours : Bytes) (baseLabel : List Char) (base : Bytes)
      (theirs : Bytes)
  deriving DecidableEq, Repr

/-- Segments and conflict refs built so far (Go builds both in one pass). -/
structure PAcc where
  segs : List Segment
  confls : List ConflictRef
  deriving DecidableEq, Repr

/-- Go `appendText`: flush the text accumulator as a `TextSegment`, skipping
an empty accumulator. -/
def flushText (acc : PAcc) (textAcc : Bytes) : PAcc :=
  if textAcc = [] then acc else { acc with segs := acc.segs ++ [.text textAcc] }

/-- Append a finished conflict: the new `ConflictRef` records the segment
index (`segIndex := len(doc.Segments)` in the source). -/
def pushConflict (acc : PAcc) (c : ConflictSegment) : PAcc :=
  { segs := acc.segs ++ [.conflict c]
    confls := acc.confls ++ [⟨acc.segs.length⟩] }

/-- One line of `Parse`'s left-to-right walk. In text mode a start marker
flushes the text and opens a conflict; while collecting ours, a base marker
opens the optional base section and a mid marker jumps to theirs; while
collecting base, a mid marker jumps to theirs; while collecting theirs, an
end marker finishes the conflict. Any other line is accumulated verbatim. -/
def parseStep (acc : PAcc) (st : MState) (line : Line) : PAcc × MState :=
  match st with
  | .text textAcc =>
    if hasLineMarker line markStart then
      (flushText acc textAcc, .ours (parseLabel line markStart) [])
    else
      (acc, .text (textAcc ++ line))
  | .ours oL o =>
    if hasLineMarker line markBase then
      (acc, .base oL o (parseLabel line markBase) [])
    else if hasLineMarker line markMid then
      (acc, .theirs oL o [] [] [])
    else
      (acc, .ours oL (o ++ line))
  | .base oL o bL b =>
    if hasLineMarker line markMid then
      (acc, .theirs oL o bL b [])
    else
      (acc, .base oL o bL (b ++ line))
  | .theirs oL o bL b t =>
    if hasLineMarker line markEnd then
      (pushConflict acc
        { Ours := o, Base := b, Theirs := t, OursLabel := oL, BaseLabel := bL
          TheirsLabel := parseLabel line markEnd, Resolution := .unset }, .text [])
    else
      (acc, .theirs oL o bL b (t ++ line))

/-- End of input: still inside a conflict section is the corresponding
malformed-conflict error (`missing separator` while collecting ours,
`missing ======= after base` while collecting base, `missing end marker`
while collecting theirs); otherwise flush the pending text. -/
def parseFinish (acc : PAcc) : MState → Except ParseError Document
  | .text textAcc =>
    .ok { Segments := (flushText acc textAcc).segs, Conflicts := (flushText acc textAcc).confls }
  | .ours _ _ => .error .missingSeparator
  | .base _ _ _ _ => .error .missingMidAfterBase
  | .theirs _ _ _ _ _ => .error .missingEnd

/-- Run the parser over a list of lines. -/
def parseRun (acc : PAcc) (st : MState) : List Line → Except ParseError Document
  | [] => parseFinish acc st
  | l :: ls => parseRun (parseStep acc st l).1 (parseStep acc st l).2 ls

/-- Go `markers.Parse`: split a file into text and conflict segments; strict —
a start marker requires a full marker structure, and any failure aborts the
whole parse with no partial `Document`. -/
def Parse (data : Bytes) : Except ParseError Document :=
  parseRun ⟨[], []⟩ (.text []) (splitLinesKeepEOL data)

/-! ## Renderer (internal/markers/render.go) -/

/-- Render error of `RenderResolved` (`ErrUnresolved` wrapped). -/
inductive RenderError
  | unresolved
  deriving DecidableEq, Repr

/-- Bytes a resolved conflict contributes: `Ours` for Ours, `Theirs` for
Theirs, `Ours` then `Theirs` for Both, nothing for None. -/
def resolvedBytes (c : ConflictSegment) : Except RenderError Bytes :=
  match c.Resolution with
  | .ours => .ok c.Ours
  | .theirs => .ok c.Theirs
  | .both => .ok (c.Ours ++ c.Theirs)
  | .none => .ok []
  | .unset => .error .unresolved

/-- One segment of Go `RenderResolved`'s loop: append the segment's bytes to
the output, or fail. -/
def renderStep (out : Bytes) (seg : Segment) : Except RenderError Bytes :=
  match seg with
  | .text b => .ok (out ++ b)
  | .conflict c =>
    match resolvedBytes c with
    | .ok b => .ok (out ++ b)
    | .error e => .error e

/-- Go `RenderResolved`: concatenate segment bytes in order, failing with the
unresolved error at a conflict whose resolution is unset. -/
def RenderResolved (doc : Document) : Except RenderError Bytes :=
  doc.Segments.foldlM renderStep []

/-- A marker line as re-emitted by the permissive renderer: the 7-character
marker, one space and the label when the label is nonempty, then `'\n'`. -/
def markerLine (marker : List Char) (label : List Char) : Line :=
  marker ++ (if label = [] then [] else ' ' :: label) ++ ['\n']

/-- Modelled from the spec: the four/five-marker block `RenderWithUnresolved`
re-emits for an unresolved conflict (the function itself is missing from the
provided sources; only its tests and callers are present). The base marker is
written exactly when the parse captured a base section (a nonempty `Base` or
a nonempty `BaseLabel`), as pinned by `TestRenderWithUnresolvedWritesBaseMarker`
(src/unnamed/part_005). -/
def unresolvedBlock (c : ConflictSegment) : Bytes :=
  markerLine markStart c.OursLabel ++ c.Ours ++
    (if c.Base = [] ∧ c.BaseLabel = [] then [] else markerLine markBase c.BaseLabel ++ c.Base) ++
    markerLine markMid [] ++ c.Theirs ++ markerLine markEnd c.TheirsLabel

/-- One segment of the permissive renderer's loop. -/
def renderWUStep (out : Bytes) (seg : Segment) : Bytes :=
  match seg with
  | .text b => out ++ b
  | .conflict c =>
    match resolvedBytes c with
    | .ok b => out ++ b
    | .error _ => out ++ unresolvedBlock c

/-- Modelled from the spec: `RenderWithUnresolved` — same as the strict
renderer for resolved conflicts, but an unresolved conflict re-emits its
original marker block verbatim, labels included, so that a subsequent Parse
round-trips (missing from the provided sources; spec §4.3 and the tests in
src/unnamed/part_005). -/
def RenderWithUnresolved (doc : Document) : Bytes :=
  doc.Segments.foldl renderWUStep []

/-! ## Resolution state engine (package engine, src/unnamed/part_016) -/

/-- Engine errors (Go returns `fmt.Errorf` values; one constructor per
distinct failure). -/
inductive EngineError
  | indexOutOfBounds
  | invalidResolution
  | notConflictSegment
  | noUndoHistory
  | noRedoHistory
  deriving DecidableEq, Repr

/-- Go `engine.State`: current document, bounded undo and redo stacks (top at
the end of the list), and the bound `maxUndoSize`. -/
structure State where
  doc : Document
  undoStack : List Document
  redoStack : List Document
  maxUndoSize : Nat
  deriving DecidableEq, Repr

/-- Go `cloneDocument`: a deep copy of the document (pure values in the
embedding, so it rebuilds the same document). -/
def cloneDocument (doc : Document) : Document :=
  { Segments :=
      doc.Segments.map (fun seg => match seg with
        | .text b => .text b
        | .conflict c => .conflict c)
    Conflicts := doc.Conflicts }

/-- Go `NewState`: requires `maxUndoSize ≥ 1`. -/
def NewState (doc : Document) (maxUndoSize : Nat) : Option State :=
  if maxUndoSize < 1 then Option.none
  else Option.some { doc := doc, undoStack := [], redoStack := [], maxUndoSize := maxUndoSize }

/-- Go `pushWithLimit`: append a snapshot at the top (end) and drop the single
oldest entry (front) when the bound is exceeded. -/
def pushWithLimit (maxUndoSize : Nat) (stack : List Document) (doc : Document) : List Document :=
  let s := stack ++ [cloneDocument doc]
  if maxUndoSize < s.length then s.tail else s

/-- Go `beginMutation`: snapshot the current document to the undo stack and
clear the redo stack. -/
def beginMutation (s : State) : State :=
  { s with undoStack := pushWithLimit s.maxUndoSize s.undoStack s.doc, redoStack := [] }

/-- Fetch the conflict segment a `ConflictRef` points at (Go type-asserts and
errors on a non-conflict segment). -/
def getConflict (doc : Document) (ref : ConflictRef) : Except EngineError ConflictSegment :=
  match doc.Segments[ref.SegmentIndex]? with
  | Option.some (.conflict c) => .ok c
  | _ => .error .notConflictSegment

/-- Replace the segment a `ConflictRef` points at. -/
def setConflict (doc : Document) (ref : ConflictRef) (c : ConflictSegment) : Document :=
  { doc with Segments := doc.Segments.set ref.SegmentIndex (.conflict c) }

/-- Go `State.ApplyResolution`: bounds-check the conflict index, reject the
`Unset` resolution, no-op when the target already holds the requested value,
otherwise snapshot (clearing redo) and mutate. -/
def ApplyResolution (s : State) (conflictIndex : Nat) (resolution : Resolution) :
    Except EngineError State :=
  if h : conflictIndex < s.doc.Conflicts.length then
    if resolution = .unset then .error .invalidResolution
    else
      match getConflict s.doc s.doc.Conflicts[conflictIndex] with
      | .error e => .error e
      | .ok seg =>
        if seg.Resolution = resolution then .ok s
        else
          .ok { beginMutation s with
            doc := setConflict s.doc s.doc.Conflicts[conflictIndex]
              { seg with Resolution := resolution } }
  else .error .indexOutOfBounds

/-- Set every conflict's resolution (the second loop of Go `ApplyAll`). -/
def setAllConflicts (doc : Document) (refs : List ConflictRef) (resolution : Resolution) :
    Except EngineError Document :=
  match refs with
  | [] => .ok doc
  | ref :: rest =>
    match getConflict doc ref with
    | .error e => .error e
    | .ok seg => setAllConflicts (setConflict doc ref { seg with Resolution := resolution }) rest resolution

/-- The first loop of Go `ApplyAll`: scan for a conflict whose resolution
differs, stopping at the first one (errors on a dangling ref seen before). -/
def anyConflictDiffers (doc : Document) (refs : List ConflictRef) (resolution : Resolution) :
    Except EngineError Bool :=
  match refs with
  | [] => .ok false
  | ref :: rest =>
    match getConflict doc ref with
    | .error e => .error e
    | .ok seg =>
      if seg.Resolution ≠ resolution then .ok true
      else anyConflictDiffers doc rest resolution

/-- Go `State.ApplyAll`: validate the resolution, skip entirely when every
conflict already holds it, otherwise snapshot once and set them all. -/
def ApplyAll (s : State) (resolution : Resolution) : Except EngineError State :=
  if resolution = .unset then .error .invalidResolution
  else
    match anyConflictDiffers s.doc s.doc.Conflicts resolution with
    | .error e => .error e
    | .ok false => .ok s
    | .ok true =>
      match setAllConflicts s.doc s.doc.Conflicts resolution with
      | .error e => .error e
      | .ok doc => .ok { beginMutation s with doc := doc }

/-- Go `State.Undo`: error on an empty undo stack, otherwise push the current
document onto redo (bounded) and pop the top undo snapshot. -/
def Undo (s : State) : Except EngineError State :=
  if h : s.undoStack = [] then .error .noUndoHistory
  else
    .ok { s with
      redoStack := pushWithLimit s.maxUndoSize s.redoStack s.doc
      doc := s.undoStack.getLast h
      undoStack := s.undoStack.dropLast }

/-- Go `State.Redo`: symmetric to `Undo`, failing on an empty redo stack. -/
def Redo (s : State) : Except EngineError State :=
  if h : s.redoStack = [] then .error .noRedoHistory
  else
    .ok { s with
      undoStack := pushWithLimit s.maxUndoSize s.undoStack s.doc
      doc := s.redoStack.getLast h
      redoStack := s.redoStack.dropLast }

/-- Go `State.UndoDepth`. -/
def UndoDepth (s : State) : Nat := s.undoStack.length

/-- Go `State.RedoDepth`. -/
def RedoDepth (s : State) : Nat := s.redoStack.length

/-! ## Line diff engine (internal/tui/render_helpers.go) -/

/-- Go `strings.Split` on `'\n'`: chunks between newlines, separators dropped
(always at least one chunk). -/
def splitNoEOL : Bytes → List Line
  | [] => [[]]
  | c :: cs =>
    match splitNoEOL cs with
    | [] => [[]]
    | l :: ls => if c = '\n' then [] :: l :: ls else (c :: l) :: ls

/-- Go `strings.TrimSuffix(line, "\r")`. -/
def trimCR (l : Line) : Line :=
  if l.getLast? = Option.some '\r' then l.dropLast else l

/-- Go tui `splitLines`: empty content gives one empty line; otherwise split
on `'\n'`, drop the final empty chunk when the content ends with `'\n'`, and
strip a trailing `'\r'` from every line. Note the result is never empty. -/
def splitLines (content : Bytes) : List Line :=
  if content = [] then [[]]
  else
    let lines := splitNoEOL content
    let lines := if content.getLast? = Option.some '\n' then lines.dropLast else lines
    lines.map trimCR

/-- Go `lineCategory`. -/
inductive LineCategory
  | default
  | modified
  | added
  | removed
  | conflicted
  | insertMarker
  | resolved
  deriving DecidableEq, Repr

/-- Go `lineEntry` (the display payload fields of `lineInfo` are irrelevant
to the diff engine): text, category and base-line index (`-1` when absent). -/
structure LineEntry where
  text : Line
  category : LineCategory
  baseIndex : Int
  deriving DecidableEq, Repr

/-- Go `diffOpKind`. -/
inductive DiffOpKind
  | equal
  | remove
  | add
  deriving DecidableEq, Repr

/-- Go `diffOp`. -/
structure DiffOp where
  kind : DiffOpKind
  text : Line
  baseIndex : Int
  deriving DecidableEq, Repr

/-- One row of the LCS table of Go `diffOps`, computed from the row below:
entry `j` is `lcs[i][j]`, using the source's recurrence — `lcs[i+1][j+1] + 1`
on a match, otherwise the larger of `lcs[i+1][j]` and `lcs[i][j+1]`, ties to
the former. -/
def lcsRow (a : Line) : List Line → List Nat → List Nat
  | [], _ => [0]
  | b :: bs, nextRow =>
    let rest := lcsRow a bs nextRow.tail
    let diag := nextRow.tail.headD 0
    let down := nextRow.headD 0
    let right := rest.headD 0
    (if a = b then diag + 1 else if right ≤ down then down else right) :: rest

/-- The LCS-table value `lcs[i][j]` of Go `diffOps` for the suffixes starting
at `i` and `j`, obtained by folding `lcsRow` from the all-zero bottom row. -/
def lcsLen (base side : List Line) : Nat :=
  (base.foldr (fun a next => lcsRow a side next) (List.replicate (side.length + 1) 0)).headD 0

/-- The backward-greedy walk of Go `diffOps`, carrying the current base index.
Each step consumes one base or side line, so `base.length + side.length` fuel
makes the fuel bound unreachable. -/
def diffOpsFuel : Nat → List Line → List Line → Int → List DiffOp
  | 0, _, _, _ => []
  | _ + 1, [], [], _ => []
  | f + 1, [], b :: bs, i => ⟨.add, b, -1⟩ :: diffOpsFuel f [] bs i
  | f + 1, a :: as, [], i => ⟨.remove, a, i⟩ :: diffOpsFuel f as [] (i + 1)
  | f + 1, a :: as, b :: bs, i =>
    if a = b then ⟨.equal, a, i⟩ :: diffOpsFuel f as bs (i + 1)
    else if lcsLen (a :: as) bs ≤ lcsLen as (b :: bs) then
      ⟨.remove, a, i⟩ :: diffOpsFuel f as (b :: bs) (i + 1)
    else ⟨.add, b, -1⟩ :: diffOpsFuel f (a :: as) bs i

/-- Go `diffOps`: the edit script between two line sequences. -/
def diffOps (base side : List Line) : List DiffOp :=
  diffOpsFuel (base.length + side.length) base side 0

/-- The entry-building loop of Go `diffEntries`, carrying `lastRemovedIndex`
(`-1` when the previous op was not a removal). -/
def diffEntriesGo : List DiffOp → Int → List LineEntry
  | [], _ => []
  | op :: rest, lastRemoved =>
    match op.kind with
    | .equal => ⟨op.text, .default, op.baseIndex⟩ :: diffEntriesGo rest (-1)
    | .remove => ⟨op.text, .removed, op.baseIndex⟩ :: diffEntriesGo rest op.baseIndex
    | .add =>
      if 0 ≤ lastRemoved then ⟨op.text, .modified, lastRemoved⟩ :: diffEntriesGo rest (-1)
      else ⟨op.text, .added, -1⟩ :: diffEntriesGo rest lastRemoved

/-- Go `diffEntries`: classify the edit script into Equal/Removed/Added
entries, turning an Added op that immediately follows a Removed op into a
Modified entry carrying the removed line's base index. -/
def diffEntries (base side : List Line) : List LineEntry :=
  diffEntriesGo (diffOps base side) (-1)

/-- The base-index-to-entry map of Go `markConflicted`: the (last) index of a
non-Removed entry carrying the given nonnegative base index, mirroring the
map insertion loop where later entries overwrite earlier ones. -/
def mapLookup (entries : List LineEntry) (bi : Int) : Option Nat :=
  (entries.enum.filterMap fun p =>
    if p.2.baseIndex = bi ∧ 0 ≤ bi ∧ p.2.category ≠ .removed then Option.some p.1
    else Option.none).getLast?

/-- One entry's fate under Go `markConflicted`: an entry is flagged
`Conflicted` exactly when it is its side's map entry for its base index, the
other side's map also holds that base index, and the two resulting texts
differ. -/
def markOne (self other : List LineEntry) (i : Nat) (e : LineEntry) : LineEntry :=
  if mapLookup self e.baseIndex = Option.some i then
    match mapLookup other e.baseIndex with
    | Option.some j =>
      match other[j]? with
      | Option.some f => if e.text ≠ f.text then { e with category := .conflicted } else e
      | Option.none => e
    | Option.none => e
  else e

/-- Go `markConflicted` (in-place in the source; returns both updated entry
lists here). -/
def markConflicted (oursEntries theirsEntries : List LineEntry) :
    List LineEntry × List LineEntry :=
  (oursEntries.enum.map fun p => markOne oursEntries theirsEntries p.1 p.2,
   theirsEntries.enum.map fun p => markOne theirsEntries oursEntries p.1 p.2)

/-- Go `entriesFromLines`. -/
def entriesFromLines (lines : List Line) (category : LineCategory) : List LineEntry :=
  lines.map fun l => ⟨l, category, -1⟩

/-- Go `conflictEntries`: split the three chunks into lines; with an empty
base line list both sides are wholly `Conflicted`, otherwise diff each side
against the base and mark three-way conflicts. -/
def conflictEntries (seg : ConflictSegment) : List LineEntry × List LineEntry :=
  let baseLines := splitLines seg.Base
  let oursLines := splitLines seg.Ours
  let theirsLines := splitLines seg.Theirs
  if baseLines = [] then
    (entriesFromLines oursLines .conflicted, entriesFromLines theirsLines .conflicted)
  else
    markConflicted (diffEntries baseLines oursLines) (diffEntries baseLines theirsLines)

/-! ## Reconciler (internal/tui/tui.go `applyMergedResolutions`) -/

/-- Reconciliation alignment failures of Go `applyMergedResolutions` (the
source also returns its partially updated document beside the error; callers
use only the error, so the embedding drops the partial state). -/
inductive AlignError
  | alignText
  | alignConflict
  deriving DecidableEq, Repr

/-- Go `findSubslice`: the first index at or after `start` where `needle`
occurs as a contiguous run of `haystack`; an empty needle matches at `start`
itself. -/
def findSubslice (haystack : List Line) (start : Nat) (needle : List Line) : Option Nat :=
  if needle = [] then Option.some start
  else
    (List.range (haystack.length + 1)).find? fun i =>
      decide (start ≤ i) && decide (i + needle.length ≤ haystack.length) &&
        needle.isPrefixOf (haystack.drop i)

/-- Go `nextTextSegmentLines`: the lines of the first following `TextSegment`
that has any lines. -/
def nextTextSegmentLines : List Segment → List Line
  | [] => []
  | .text b :: rest =>
    let lines := splitLinesKeepEOL b
    if lines = [] then nextTextSegmentLines rest else lines
  | .conflict _ :: rest => nextTextSegmentLines rest

/-- Go `containsConflictMarkers`: some line starts with one of the four
marker prefixes. -/
def containsConflictMarkers (lines : List Line) : Bool :=
  lines.any fun l =>
    hasLineMarker l markStart || hasLineMarker l markBase ||
      hasLineMarker l markMid || hasLineMarker l markEnd

/-- Go `matchResolution`: compare the span against, in order, Ours, Theirs,
Ours+Theirs and the empty span; the boolean reports whether any matched. -/
def matchResolution (lines : List Line) (seg : ConflictSegment) : Resolution × Bool :=
  let ours := splitLinesKeepEOL seg.Ours
  let theirs := splitLinesKeepEOL seg.Theirs
  let both := ours ++ theirs
  if lines = ours then (.ours, true)
  else if lines = theirs then (.theirs, true)
  else if lines = both then (.both, true)
  else if lines = [] then (.none, true)
  else (.unset, false)

/-- How one conflict's resolved span is treated (the conflict-segment body of
Go `applyMergedResolutions`): a span still containing any of the four marker
prefixes leaves the segment untouched with no manual entry; otherwise the
first `matchResolution` hit sets the canonical resolution; otherwise the
verbatim span bytes are recorded under the conflict's index and the
resolution stays untouched. -/
def conflictSpanOutcome (c : ConflictSegment) (ci : Nat) (span : List Line) :
    ConflictSegment × List (Nat × Bytes) :=
  if containsConflictMarkers span then (c, [])
  else if (matchResolution span c).2 then
    ({ c with Resolution := (matchResolution span c).1 }, [])
  else (c, [(ci, joinLines span)])

/-- The segment walk of Go `applyMergedResolutions`: align each text
segment's lines at or after the cursor, and for each conflict take the span
up to the next text segment's match (or end of file) and treat it per
`conflictSpanOutcome`. -/
def amrGo : List Segment → List Line → Nat → Nat → List (Nat × Bytes) →
    Except AlignError (List Segment × List (Nat × Bytes))
  | [], _, _, _, manual => .ok ([], manual)
  | .text b :: rest, merged, pos, ci, manual =>
    let textLines := splitLinesKeepEOL b
    if textLines = [] then
      match amrGo rest merged pos ci manual with
      | .error e => .error e
      | .ok (rs, m) => .ok (.text b :: rs, m)
    else
      match findSubslice merged pos textLines with
      | Option.none => .error .alignText
      | Option.some idx =>
        match amrGo rest merged (idx + textLines.length) ci manual with
        | .error e => .error e
        | .ok (rs, m) => .ok (.text b :: rs, m)
  | .conflict c :: rest, merged, pos, ci, manual =>
    let nextText := nextTextSegmentLines rest
    let nextIdx :=
      if nextText = [] then merged.length
      else match findSubslice merged pos nextText with
        | Option.some i => i
        | Option.none => merged.length
    if nextIdx < pos then .error .alignConflict
    else
      let outcome := conflictSpanOutcome c ci ((merged.drop pos).take (nextIdx - pos))
      match amrGo rest merged nextIdx (ci + 1) (manual ++ outcome.2) with
      | .error e => .error e
      | .ok (rs, m) => .ok (.conflict outcome.1 :: rs, m)

/-- Go `applyMergedResolutions`: reconcile an externally edited file against
the parsed document, returning the updated document and the manual-resolution
map (an association list keyed by conflict index here). -/
def applyMergedResolutions (doc : Document) (mergedBytes : Bytes) :
    Except AlignError (Document × List (Nat × Bytes)) :=
  match amrGo doc.Segments (splitLinesKeepEOL mergedBytes) 0 0 [] with
  | .error e => .error e
  | .ok (segs, manual) => .ok ({ doc with Segments := segs }, manual)

/-! ## Shared concrete material -/

/-- A line given as a string literal. -/
def str (s : String) : Line := s.toList

/-- The spec's example input with one conflict. -/
def exampleInput : Bytes :=
  "line1\n<<<<<<< HEAD\nours\n=======\ntheirs\n>>>>>>> branch\nline2\n".toList

/-- The document `Parse exampleInput` produces. -/
def exampleDoc : Document :=
  { Segments :=
      [.text "line1\n".toList,
       .conflict
         { Ours := "ours\n".toList, Base := [], Theirs := "theirs\n".toList
           OursLabel := "HEAD".toList, BaseLabel := [], TheirsLabel := "branch".toList
           Resolution := .unset },
       .text "line2\n".toList]
    Conflicts := [⟨1⟩] }

/-- The no-base conflict segment exhibiting the `conflictEntries` bug. -/
def noBaseSeg : ConflictSegment :=
  { Ours := "x\ny\n".toList, Base := [], Theirs := "x\nz\n".toList
    OursLabel := [], BaseLabel := [], TheirsLabel := [], Resolution := .unset }

/-- Whether a segment is a conflict whose resolution is still unset. -/
def isUnsetConflict : Segment → Bool
  | .conflict c => c.Resolution == .unset
  | .text _ => false

/-- Bytes a segment contributes to the strict render when it does not fail. -/
def resolvedOutput : Segment → Bytes
  | .text b => b
  | .conflict c =>
    match resolvedBytes c with
    | .ok b => b
    | .error _ => []

/-- The example document with its conflict resolved `Both`. -/
def exampleDocBoth : Document :=
  { Segments :=
      [.text "line1\n".toList,
       .conflict
         { Ours := "ours\n".toList, Base := [], Theirs := "theirs\n".toList
           OursLabel := "HEAD".toList, BaseLabel := [], TheirsLabel := "branch".toList
           Resolution := .both },
       .text "line2\n".toList]
    Conflicts := [⟨1⟩] }

/-! ## Engine operation sequences (for the C5 invariant) -/

/-- The engine's mutating/undo operations, for stating "after any sequence of
operations". -/
inductive EngineOp
  | applyRes (conflictIndex : Nat) (resolution : Resolution)
  | applyAllRes (resolution : Resolution)
  | undoOp
  | redoOp
  deriving DecidableEq, Repr

/-- Run one operation against the state; a failed call leaves the state as it
was (the Go caller keeps its `State` value on error). -/
def runOp (s : State) : EngineOp → State
  | .applyRes i r =>
    match ApplyResolution s i r with
    | .ok s' => s'
    | .error _ => s
  | .applyAllRes r =>
    match ApplyAll s r with
    | .ok s' => s'
    | .error _ => s
  | .undoOp =>
    match Undo s with
    | .ok s' => s'
    | .error _ => s
  | .redoOp =>
    match Redo s with
    | .ok s' => s'
    | .error _ => s

/-- Run a sequence of operations. -/
def runOps (s : State) (ops : List EngineOp) : State := ops.foldl runOp s

/-- Both history stacks respect the state's own bound. -/
abbrev stacksBounded (s : State) : Prop :=
  s.undoStack.length ≤ s.maxUndoSize ∧ s.redoStack.length ≤ s.maxUndoSize

/-! ## A concrete mutation family for the bounded-history part of C5 -/

/-- A one-conflict document with the given resolution. -/
def oneDoc (r : Resolution) : Document :=
  { Segments := [.conflict ⟨[], [], [], [], [], [], r⟩], Conflicts := [⟨0⟩] }

/-- Alternating resolutions, so that every call genuinely mutates. -/
def altRes (k : Nat) : Resolution := if k % 2 = 0 then .ours else .theirs

/-- The resolution `oneDoc` holds after `k` alternating calls. -/
def altResState : Nat → Resolution
  | 0 => .unset
  | k + 1 => altRes k

/-- The state after `k` alternating `ApplyResolution` calls on a fresh
`N`-bounded state over `oneDoc`. -/
def altState (N : Nat) : Nat → State
  | 0 => ⟨oneDoc .unset, [], [], N⟩
  | k + 1 => runOp (altState N k) (.applyRes 0 (altRes k))

/-- Repeated `Undo`. -/
def undoTimes (s : State) : Nat → State
  | 0 => s
  | j + 1 => runOp (undoTimes s j) .undoOp

/-- The conflict segment of the one-conflict example document. -/
def exampleConflict : ConflictSegment :=
  { Ours := "ours\n".toList, Base := [], Theirs := "theirs\n".toList
    OursLabel := "HEAD".toList, BaseLabel := [], TheirsLabel := "branch".toList
    Resolution := .unset }

/-! ## Line-chunk structure of `splitLinesKeepEOL` (for the C4 round trip) -/

/-- A chunk `splitLinesKeepEOL` can produce: nonempty, `'\n'` at most as the
final character. -/
def IsChunk (l : Line) : Prop := l ≠ [] ∧ '\n' ∉ l.dropLast

/-- A newline-terminated chunk. -/
def IsNLChunk (l : Line) : Prop := IsChunk l ∧ l.getLast? = Option.some '\n'

/-- A list of chunks as produced by `splitLinesKeepEOL`: every chunk proper,
every chunk but the last newline-terminated. -/
def ChunkedLines : List Line → Prop
  | [] => True
  | [l] => IsChunk l
  | l :: ls => IsNLChunk l ∧ ChunkedLines ls

/-! ## Parser-machine composition and well-formedness (C4) -/

/-- Step the parser state machine over a list of lines without finishing. -/
def stepAll (acc : PAcc) (st : MState) : List Line → PAcc × MState
  | [] => (acc, st)
  | l :: ls => stepAll (parseStep acc st l).1 (parseStep acc st l).2 ls

/-- The canonical conflict references of a segment list: the index of each
conflict segment, in order, starting at `k`. -/
def refsFrom : List Segment → Nat → List ConflictRef
  | [], _ => []
  | .text _ :: rest, k => refsFrom rest (k + 1)
  | .conflict _ :: rest, k => ⟨k⟩ :: refsFrom rest (k + 1)

/-- Text bytes never opening a conflict. -/
def noStartLines (t : Bytes) : Prop :=
  ∀ l ∈ splitLinesKeepEOL t, hasLineMarker l markStart = false

/-- A text segment the parser can produce. -/
def wfText (t : Bytes) : Prop := t ≠ [] ∧ noStartLines t

/-- A label as captured at parse time: trimmed and newline-free. -/
def wfLabel (l : List Char) : Prop := trimChars l = l ∧ '\n' ∉ l

/-- Bytes that are empty or newline-terminated. -/
def endsNL (b : Bytes) : Prop := b = [] ∨ b.getLast? = Option.some '\n'

/-- A conflict segment the parser can produce: sections newline-terminated
with no early marker lines, trimmed labels, unresolved. -/
def wfConflict (c : ConflictSegment) : Prop :=
  endsNL c.Ours ∧ endsNL c.Base ∧ endsNL c.Theirs ∧
  (∀ l ∈ splitLinesKeepEOL c.Ours,
    hasLineMarker l markBase = false ∧ hasLineMarker l markMid = false) ∧
  (∀ l ∈ splitLinesKeepEOL c.Base, hasLineMarker l markMid = false) ∧
  (∀ l ∈ splitLinesKeepEOL c.Theirs, hasLineMarker l markEnd = false) ∧
  wfLabel c.OursLabel ∧ wfLabel c.BaseLabel ∧ wfLabel c.TheirsLabel ∧
  c.Resolution = .unset

/-- Whether a segment is not a text segment. -/
def notText : Segment → Prop
  | .text _ => False
  | .conflict _ => True

/-- The shape of a parsed segment list: text segments are nonempty, contain
no start-marker lines, never sit next to each other, and end with a newline
unless last; conflict segments are well-formed. -/
def wfSegs : List Segment → Prop
  | [] => True
  | [.text t] => wfText t
  | .text t :: s :: rest =>
    wfText t ∧ t.getLast? = Option.some '\n' ∧ notText s ∧ wfSegs (s :: rest)
  | .conflict c :: rest => wfConflict c ∧ wfSegs rest

/-- As `wfSegs`, additionally forbidding a trailing text segment (the
mid-parse invariant: a flushed text is always followed by a conflict). -/
def wfSegsA : List Segment → Prop
  | [] => True
  | [.text _] => False
  | .text t :: s :: rest =>
    wfText t ∧ t.getLast? = Option.some '\n' ∧ notText s ∧ wfSegsA (s :: rest)
  | .conflict c :: rest => wfConflict c ∧ wfSegsA rest

/-- A well-formed document: parsed-shape segments and canonical refs. -/
def WFDoc (doc : Document) : Prop :=
  wfSegs doc.Segments ∧ doc.Conflicts = refsFrom doc.Segments 0

/-! ## Render lines and the split of a rendered document (C4) -/

/-- The line list of the marker block `unresolvedBlock` emits. -/
def blockLines (c : ConflictSegment) : List Line :=
  markerLine markStart c.OursLabel ::
    (splitLinesKeepEOL c.Ours ++
      (if c.Base = [] ∧ c.BaseLabel = [] then []
       else markerLine markBase c.BaseLabel :: splitLinesKeepEOL c.Base) ++
      markerLine markMid [] ::
        (splitLinesKeepEOL c.Theirs ++ [markerLine markEnd c.TheirsLabel]))

/-- The line list a segment contributes to the permissive rendering. -/
def segLines : Segment → List Line
  | .text b => splitLinesKeepEOL b
  | .conflict c => blockLines c

/-- A segment whose resolution does not block the permissive marker path. -/
def segUnset : Segment → Prop
  | .text _ => True
  | .conflict c => c.Resolution = .unset

/-- All chunks of a line list are newline-terminated. -/
def NLLines (ls : List Line) : Prop := ∀ l ∈ ls, IsNLChunk l

/-- Pending bytes: the section accumulator is empty or newline-terminated,
except possibly at the very end of the input. -/
def pending (x : Bytes) (ls : List Line) : Prop :=
  x = [] ∨ x.getLast? = Option.some '\n' ∨ ls = []

/-- The ours-section line condition. -/
def oursNoMarks (o : Bytes) : Prop :=
  ∀ l ∈ splitLinesKeepEOL o,
    hasLineMarker l markBase = false ∧ hasLineMarker l markMid = false

/-- The base-section line condition. -/
def baseNoMarks (b : Bytes) : Prop :=
  ∀ l ∈ splitLinesKeepEOL b, hasLineMarker l markMid = false

/-- The theirs-section line condition. -/
def theirsNoMarks (t : Bytes) : Prop :=
  ∀ l ∈ splitLinesKeepEOL t, hasLineMarker l markEnd = false

/-- Mid-conflict segment shape: a flushed text segment may trail. -/
def PendSegs (segs : List Segment) : Prop :=
  wfSegsA segs ∨ ∃ S t, segs = S ++ [Segment.text t] ∧ wfSegsA S ∧ wfText t ∧
    t.getLast? = Option.some '\n'

/-- The parser invariant, per machine state. -/
def MInv : PAcc → MState → List Line → Prop
  | acc, .text tAcc, ls =>
    acc.confls = refsFrom acc.segs 0 ∧ wfSegsA acc.segs ∧ noStartLines tAcc ∧ pending tAcc ls
  | acc, .ours oL o, ls =>
    acc.confls = refsFrom acc.segs 0 ∧ PendSegs acc.segs ∧ wfLabel oL ∧ oursNoMarks o ∧
      pending o ls
  | acc, .base oL o bL b, ls =>
    acc.confls = refsFrom acc.segs 0 ∧ PendSegs acc.segs ∧ wfLabel oL ∧ wfLabel bL ∧
      endsNL o ∧ oursNoMarks o ∧ baseNoMarks b ∧ pending b ls
  | acc, .theirs oL o bL b t, ls =>
    acc.confls = refsFrom acc.segs 0 ∧ PendSegs acc.segs ∧ wfLabel oL ∧ wfLabel bL ∧
      endsNL o ∧ oursNoMarks o ∧ endsNL b ∧ baseNoMarks b ∧ theirsNoMarks t ∧ pending t ls


/-! ## Theorems -/

theorem joinLines_splitGo (b acc : Bytes) : joinLines (splitGo b acc) = acc ++ b := by
  induction b generalizing acc with
  | nil =>
    by_cases h : acc = [] <;> simp [splitGo, joinLines, h]
  | cons c cs ih =>
    by_cases h : c = '\n'
    · subst h
      simp [splitGo, joinLines] at ih ⊢
      simpa [joinLines] using ih []
    · simp [splitGo, h]
      simpa using ih (acc ++ [c])

/-- Splitting then joining is the identity on bytes. -/
theorem joinLines_splitLinesKeepEOL (b : Bytes) : joinLines (splitLinesKeepEOL b) = b := by
  simpa using joinLines_splitGo b []

theorem cloneDocument_eq (doc : Document) : cloneDocument doc = doc := by
  cases doc with
  | mk segs confls =>
    simp only [cloneDocument]
    congr 1
    induction segs with
    | nil => rfl
    | cons s rest ih => cases s <;> simpa using ih

theorem Parse_exampleInput : Parse exampleInput = .ok exampleDoc := by rfl

/-! ## Claim theorems -/

/-- C1, counterexample: `diffEntries ["a","b"] ["a","b2"]` is not the
two-entry sequence `[Equal "a", Modified "b2" (baseIndex 1)]` the claim
demands — the code keeps the Removed entry. -/
theorem C1_counterexample :
    diffEntries [str "a", str "b"] [str "a", str "b2"] ≠
      [⟨str "a", .default, 0⟩, ⟨str "b2", .modified, 1⟩] := by decide

/-- C1, amended: `diffEntries ["a","b"] ["a","b2"]` yields
`[Equal "a" (baseIndex 0), Removed "b" (baseIndex 1), Modified "b2"
(baseIndex 1)]` — the Added line immediately following a Removed line is
reclassified as a Modified line carrying the removed line's base index, but
the Removed entry itself is retained in the sequence (as the code's own test
`TestDiffEntriesCategories` asserts). -/
theorem C1_amended :
    diffEntries [str "a", str "b"] [str "a", str "b2"] =
      [⟨str "a", .default, 0⟩, ⟨str "b", .removed, 1⟩, ⟨str "b2", .modified, 1⟩] := by decide

/-- C2, counterexample: with base `["x"]`, ours `["y"]`, theirs `["x"]`
(theirs unchanged), the claim says neither side's entry is marked
Conflicted — but `markConflicted` compares the two sides' resulting texts at
base index 0 (`"y"` vs `"x"`), finds them different, and flags both, so the
theirs side does contain a Conflicted entry. -/
theorem C2_counterexample :
    ((markConflicted (diffEntries [str "x"] [str "y"])
        (diffEntries [str "x"] [str "x"])).2.any fun e => e.category = .conflicted) = true := by
  decide

/-- C2, amended: for base `["x"]`, ours `["y"]`, theirs `["z"]`, both sides'
forward entries at base index 0 are marked Conflicted; and for theirs `["x"]`
(unchanged), `markConflicted` also flags both sides' entries at base index 0
as Conflicted, because the resulting texts (`"y"` vs `"x"`) differ — an
unchanged side is not exempt. -/
theorem C2_amended :
    markConflicted (diffEntries [str "x"] [str "y"]) (diffEntries [str "x"] [str "z"]) =
        ([⟨str "x", .removed, 0⟩, ⟨str "y", .conflicted, 0⟩],
         [⟨str "x", .removed, 0⟩, ⟨str "z", .conflicted, 0⟩]) ∧
      markConflicted (diffEntries [str "x"] [str "y"]) (diffEntries [str "x"] [str "x"]) =
        ([⟨str "x", .removed, 0⟩, ⟨str "y", .conflicted, 0⟩],
         [⟨str "x", .conflicted, 0⟩]) := by decide

/-- C3, code bug: for a conflict with no base chunk (`Base` empty),
`conflictEntries` does not mark everything Conflicted. `splitLines` never
returns an empty list (empty content yields `[""]`), so the guard
`len(baseLines) == 0` — the branch written to make both sides wholly
Conflicted exactly as the spec describes — is unreachable, and the sides are
instead diffed against the single empty line: here nothing at all ends up
Conflicted. -/
theorem C3_code_behavior :
    conflictEntries noBaseSeg =
        ([⟨[], .removed, 0⟩, ⟨str "x", .modified, 0⟩, ⟨str "y", .added, -1⟩],
         [⟨[], .removed, 0⟩, ⟨str "x", .modified, 0⟩, ⟨str "z", .added, -1⟩]) ∧
      ((conflictEntries noBaseSeg).1.all fun e => e.category = .conflicted) = false ∧
      splitLines [] = [[]] := by decide

/-- C7, counterexample: `Parse "<<<<<<< HEAD\nno end marker\n"` fails while
still collecting the ours section (no base/mid marker was found), i.e. with
the missing-separator error — not with the missing-end-marker error the
claim names. -/
theorem C7_counterexample :
    Parse "<<<<<<< HEAD\nno end marker\n".toList = .error .missingSeparator ∧
      Parse "<<<<<<< HEAD\nno end marker\n".toList ≠ .error .missingEnd := by decide

/-- C7, amended: each truncation point fails with its own distinguishable
malformed-conflict error and yields no document: end of input while
collecting ours gives the missing-separator error, while collecting base the
missing-mid-after-base error, while collecting theirs the missing-end-marker
error (the fourth condition, a non-mid-marker line at the mid-marker
position, is an error branch the parser's control flow can never reach); in
particular `"<<<<<<< HEAD\nno end marker\n"` fails with the missing-separator
error. -/
theorem C7_amended :
    Parse "<<<<<<< HEAD\nours\n".toList = .error .missingSeparator ∧
      Parse "<<<<<<< H\n||||||| b\nbase\n".toList = .error .missingMidAfterBase ∧
      Parse "<<<<<<< a\nours\n=======\ntheirs\n".toList = .error .missingEnd ∧
      Parse "<<<<<<< HEAD\nno end marker\n".toList = .error .missingSeparator := by decide

theorem except_bind_ok {α β ε : Type} (a : α) (f : α → Except ε β) :
    (Except.ok a : Except ε α) >>= f = f a := rfl

theorem except_bind_err {α β ε : Type} (e : ε) (f : α → Except ε β) :
    (Except.error e : Except ε α) >>= f = Except.error e := rfl

theorem except_pure_eq {α ε : Type} (a : α) : (pure a : Except ε α) = Except.ok a := rfl

theorem foldlM_renderStep_ok (segs : List Segment) (out : Bytes)
    (h : ∀ seg ∈ segs, isUnsetConflict seg = false) :
    segs.foldlM renderStep out = .ok (out ++ segs.flatMap resolvedOutput) := by
  induction segs generalizing out with
  | nil => simp [except_pure_eq]
  | cons seg rest ih =>
    have hseg := h seg (by simp)
    have hrest : ∀ s ∈ rest, isUnsetConflict s = false := fun s hs => h s (by simp [hs])
    cases seg with
    | text b =>
      simp only [List.foldlM_cons, renderStep, except_bind_ok]
      simpa [resolvedOutput, List.append_assoc] using ih (out ++ b) hrest
    | conflict c =>
      simp only [isUnsetConflict, beq_iff_eq] at hseg
      cases hres : c.Resolution with
      | unset => simp [hres] at hseg
      | ours =>
        simp only [List.foldlM_cons, renderStep, resolvedBytes, hres, except_bind_ok]
        simpa [resolvedOutput, resolvedBytes, hres, List.append_assoc]
          using ih (out ++ c.Ours) hrest
      | theirs =>
        simp only [List.foldlM_cons, renderStep, resolvedBytes, hres, except_bind_ok]
        simpa [resolvedOutput, resolvedBytes, hres, List.append_assoc]
          using ih (out ++ c.Theirs) hrest
      | both =>
        simp only [List.foldlM_cons, renderStep, resolvedBytes, hres, except_bind_ok]
        simpa [resolvedOutput, resolvedBytes, hres, List.append_assoc]
          using ih (out ++ (c.Ours ++ c.Theirs)) hrest
      | none =>
        simp only [List.foldlM_cons, renderStep, resolvedBytes, hres, except_bind_ok]
        simpa [resolvedOutput, resolvedBytes, hres, List.append_assoc]
          using ih (out ++ ([] : Bytes)) hrest

theorem foldlM_renderStep_err (segs : List Segment) (out : Bytes)
    (h : ∃ seg ∈ segs, isUnsetConflict seg = true) :
    segs.foldlM renderStep out = .error .unresolved := by
  induction segs generalizing out with
  | nil => simp at h
  | cons seg rest ih =>
    rcases h with ⟨s, hs, hunset⟩
    rcases List.mem_cons.mp hs with rfl | hmem
    · cases s with
      | text b => simp [isUnsetConflict] at hunset
      | conflict c =>
        simp only [isUnsetConflict, beq_iff_eq] at hunset
        simp [List.foldlM_cons, renderStep, resolvedBytes, hunset, except_bind_err]
    · cases seg with
      | text b =>
        simp only [List.foldlM_cons, renderStep, except_bind_ok]
        exact ih (out ++ b) ⟨s, hmem, hunset⟩
      | conflict c =>
        cases hres : c.Resolution <;>
          simp only [List.foldlM_cons, renderStep, resolvedBytes, hres, except_bind_ok,
            except_bind_err] <;>
          first
          | rfl
          | exact ih _ ⟨s, hmem, hunset⟩

/-- C8: strict rendering concatenates segment bytes in document order with
each conflict contributing `Ours`/`Theirs`/`Ours`+`Theirs`/nothing per its
resolution (`resolvedOutput`), fails with the unresolved error whenever some
conflict is still unset; and the example input parses to 1 conflict and 3
segments, and after applying `Both`, strict rendering yields exactly
`"line1\nours\ntheirs\nline2\n"`. -/
theorem C8_render_strict :
    (∀ doc : Document, (∃ seg ∈ doc.Segments, isUnsetConflict seg = true) →
      RenderResolved doc = .error .unresolved) ∧
    (∀ doc : Document, (∀ seg ∈ doc.Segments, isUnsetConflict seg = false) →
      RenderResolved doc = .ok (doc.Segments.flatMap resolvedOutput)) ∧
    Parse exampleInput = .ok exampleDoc ∧
    exampleDoc.Conflicts.length = 1 ∧ exampleDoc.Segments.length = 3 ∧
    ApplyResolution ⟨exampleDoc, [], [], 10⟩ 0 .both =
      .ok ⟨exampleDocBoth, [exampleDoc], [], 10⟩ ∧
    RenderResolved exampleDocBoth = .ok "line1\nours\ntheirs\nline2\n".toList := by
  refine ⟨fun doc h => foldlM_renderStep_err _ _ h,
    fun doc h => by simpa [RenderResolved] using foldlM_renderStep_ok _ _ h,
    by decide, by decide, by decide, by decide, by decide⟩

/-- C8 witness: the first two conjuncts applied at the example documents —
the unresolved example document fails strict rendering, and the `Both`
document renders to the concatenation of its segments' resolved bytes. -/
theorem C8_witness :
    RenderResolved exampleDoc = .error .unresolved ∧
      RenderResolved exampleDocBoth = .ok (exampleDocBoth.Segments.flatMap resolvedOutput) := by
  refine ⟨C8_render_strict.1 exampleDoc ?_, C8_render_strict.2.1 exampleDocBoth (by decide)⟩
  exact ⟨.conflict
    { Ours := "ours\n".toList, Base := [], Theirs := "theirs\n".toList
      OursLabel := "HEAD".toList, BaseLabel := [], TheirsLabel := "branch".toList
      Resolution := .unset }, by decide, by decide⟩

theorem parseRun_text_only (ls : List Line) (acc : PAcc) (tAcc : Bytes)
    (h : ∀ l ∈ ls, hasLineMarker l markStart = false) :
    parseRun acc (.text tAcc) ls = parseFinish acc (.text (tAcc ++ joinLines ls)) := by
  induction ls generalizing tAcc with
  | nil => simp [parseRun, joinLines]
  | cons l ls ih =>
    have hl := h l (by simp)
    have hls : ∀ x ∈ ls, hasLineMarker x markStart = false := fun x hx => h x (by simp [hx])
    simp only [parseRun, parseStep, hl, Bool.false_eq_true, if_false]
    simpa [joinLines, List.append_assoc] using ih (tAcc ++ l) hls

/-- C10: if no line of the input starts with the 7-character start marker —
in particular when it contains stray `=======`, `|||||||` or `>>>>>>>`
lines — `Parse` succeeds with zero conflicts, and the whole input (those
marker-looking lines included, verbatim) is the bytes of the single
`TextSegment` (no segment at all for empty input). -/
theorem C10_stray_markers (data : Bytes)
    (h : ∀ l ∈ splitLinesKeepEOL data, hasLineMarker l markStart = false) :
    Parse data =
      .ok { Segments := if data = [] then [] else [.text data], Conflicts := [] } := by
  have := parseRun_text_only (splitLinesKeepEOL data) ⟨[], []⟩ [] h
  rw [Parse, this]
  simp only [List.nil_append, joinLines_splitLinesKeepEOL]
  by_cases hd : data = [] <;> simp [parseFinish, flushText, hd]

/-- C10 witness: an input consisting of stray mid/end-marker lines and plain
text parses to a single text segment holding it verbatim, with no conflict. -/
theorem C10_witness :
    Parse "=======\nplain\n>>>>>>> x\n".toList =
      .ok { Segments := [.text "=======\nplain\n>>>>>>> x\n".toList], Conflicts := [] } := by
  have := C10_stray_markers "=======\nplain\n>>>>>>> x\n".toList (by decide)
  simpa using this

/-! ## Engine history lemmas -/

theorem pushWithLimit_length (max : Nat) (stack : List Document) (d : Document) :
    (pushWithLimit max stack d).length =
      if max < stack.length + 1 then stack.length else stack.length + 1 := by
  by_cases h : max < stack.length + 1 <;> simp [pushWithLimit, h]

theorem pushWithLimit_length_le (max : Nat) (stack : List Document) (d : Document)
    (h : stack.length ≤ max) : (pushWithLimit max stack d).length ≤ max := by
  rw [pushWithLimit_length]
  split <;> omega

theorem pushWithLimit_getLast? (max : Nat) (stack : List Document) (d : Document)
    (h : 1 ≤ max) : (pushWithLimit max stack d).getLast? = Option.some d := by
  rw [pushWithLimit]
  split
  · rename_i hlt
    cases stack with
    | nil => simp at hlt; omega
    | cons x xs =>
      simp only [List.cons_append, List.tail_cons]
      rw [List.getLast?_append]
      · simp [cloneDocument_eq]
  · rw [List.getLast?_append]
    simp [cloneDocument_eq]

theorem pushWithLimit_ne_nil (max : Nat) (stack : List Document) (d : Document)
    (h : 1 ≤ max) : pushWithLimit max stack d ≠ [] := by
  intro hnil
  have := pushWithLimit_getLast? max stack d h
  rw [hnil] at this
  simp at this

/-- C6: undo followed immediately by redo restores the current document
exactly, for every state with a nonempty undo stack and a positive bound
(every state created by `NewState` has one); and `Redo` fails with the
no-redo-history error whenever the redo stack is empty, in particular when no
`Undo` preceded it. -/
theorem C6_undo_redo_inverse :
    (∀ s : State, 1 ≤ s.maxUndoSize → s.undoStack ≠ [] →
      ∃ s' s'', Undo s = .ok s' ∧ Redo s' = .ok s'' ∧ s''.doc = s.doc) ∧
    (∀ s : State, s.redoStack = [] → Redo s = .error .noRedoHistory) := by
  constructor
  · intro s hmax hundo
    have hne : pushWithLimit s.maxUndoSize s.redoStack s.doc ≠ [] :=
      pushWithLimit_ne_nil _ _ _ hmax
    refine ⟨⟨s.undoStack.getLast hundo, s.undoStack.dropLast,
      pushWithLimit s.maxUndoSize s.redoStack s.doc, s.maxUndoSize⟩,
      ⟨(pushWithLimit s.maxUndoSize s.redoStack s.doc).getLast hne,
        pushWithLimit s.maxUndoSize s.undoStack.dropLast (s.undoStack.getLast hundo),
        (pushWithLimit s.maxUndoSize s.redoStack s.doc).dropLast, s.maxUndoSize⟩,
      ?_, ?_, ?_⟩
    · rw [Undo, dif_neg hundo]
    · rw [Redo, dif_neg hne]
    · have hlast : (pushWithLimit s.maxUndoSize s.redoStack s.doc).getLast? =
          Option.some s.doc := pushWithLimit_getLast? _ _ _ hmax
      rw [List.getLast?_eq_getLast _ hne] at hlast
      simpa using hlast
  · intro s hredo
    rw [Redo]
    simp [hredo]

/-- C6 witness: at a concrete two-snapshot state, undo then redo restores the
document, and redo on a state with an empty redo stack fails. -/
theorem C6_witness :
    (∃ s' s'', Undo ⟨exampleDocBoth, [exampleDoc], [], 10⟩ = .ok s' ∧ Redo s' = .ok s'' ∧
      s''.doc = exampleDocBoth) ∧
      Redo ⟨exampleDoc, [], [], 10⟩ = .error .noRedoHistory :=
  ⟨C6_undo_redo_inverse.1 ⟨exampleDocBoth, [exampleDoc], [], 10⟩ (by decide) (by decide),
   C6_undo_redo_inverse.2 ⟨exampleDoc, [], [], 10⟩ rfl⟩

theorem beginMutation_bounded (s : State) (h : stacksBounded s) :
    stacksBounded (beginMutation s) := by
  exact ⟨pushWithLimit_length_le _ _ _ h.1, by simp [beginMutation]⟩

theorem beginMutation_max (s : State) : (beginMutation s).maxUndoSize = s.maxUndoSize := rfl

theorem applyResolution_cases (s : State) (i : Nat) (r : Resolution) (s' : State)
    (h : ApplyResolution s i r = .ok s') :
    s' = s ∨ ∃ doc, s' = { beginMutation s with doc := doc } := by
  rw [ApplyResolution] at h
  split at h
  · split at h
    · cases h
    · split at h
      · cases h
      · split at h
        · exact Or.inl (by cases h; rfl)
        · exact Or.inr ⟨_, by cases h; rfl⟩
  · cases h

theorem applyAll_cases (s : State) (r : Resolution) (s' : State)
    (h : ApplyAll s r = .ok s') :
    s' = s ∨ ∃ doc, s' = { beginMutation s with doc := doc } := by
  rw [ApplyAll] at h
  split at h
  · cases h
  · split at h
    · cases h
    · exact Or.inl (by cases h; rfl)
    · split at h
      · cases h
      · exact Or.inr ⟨_, by cases h; rfl⟩

theorem runOp_max (s : State) (op : EngineOp) : (runOp s op).maxUndoSize = s.maxUndoSize := by
  cases op with
  | applyRes i r =>
    rw [runOp]
    split
    · rename_i s' h
      rcases applyResolution_cases s i r s' h with rfl | ⟨doc, rfl⟩ <;> rfl
    · rfl
  | applyAllRes r =>
    rw [runOp]
    split
    · rename_i s' h
      rcases applyAll_cases s r s' h with rfl | ⟨doc, rfl⟩ <;> rfl
    · rfl
  | undoOp =>
    rw [runOp]
    split
    · rename_i s' h
      rw [Undo] at h
      split at h
      · cases h
      · cases h; rfl
    · rfl
  | redoOp =>
    rw [runOp]
    split
    · rename_i s' h
      rw [Redo] at h
      split at h
      · cases h
      · cases h; rfl
    · rfl

theorem runOp_bounded (s : State) (op : EngineOp) (h : stacksBounded s) :
    stacksBounded (runOp s op) := by
  cases op with
  | applyRes i r =>
    rw [runOp]
    split
    · rename_i s' hap
      rcases applyResolution_cases s i r s' hap with rfl | ⟨doc, rfl⟩
      · exact h
      · exact ⟨(beginMutation_bounded s h).1, (beginMutation_bounded s h).2⟩
    · exact h
  | applyAllRes r =>
    rw [runOp]
    split
    · rename_i s' hap
      rcases applyAll_cases s r s' hap with rfl | ⟨doc, rfl⟩
      · exact h
      · exact ⟨(beginMutation_bounded s h).1, (beginMutation_bounded s h).2⟩
    · exact h
  | undoOp =>
    rw [runOp]
    split
    · rename_i s' hu
      rw [Undo] at hu
      split at hu
      · cases hu
      · cases hu
        constructor
        · calc s.undoStack.dropLast.length = s.undoStack.length - 1 := List.length_dropLast _
            _ ≤ s.maxUndoSize := le_trans (Nat.sub_le _ _) h.1
        · exact pushWithLimit_length_le _ _ _ h.2
    · exact h
  | redoOp =>
    rw [runOp]
    split
    · rename_i s' hr
      rw [Redo] at hr
      split at hr
      · cases hr
      · cases hr
        constructor
        · exact pushWithLimit_length_le _ _ _ h.1
        · calc s.redoStack.dropLast.length = s.redoStack.length - 1 := List.length_dropLast _
            _ ≤ s.maxUndoSize := le_trans (Nat.sub_le _ _) h.2
    · exact h

theorem runOps_bounded (s : State) (ops : List EngineOp) (h : stacksBounded s) :
    stacksBounded (runOps s ops) := by
  induction ops generalizing s with
  | nil => exact h
  | cons op ops ih => exact ih (runOp s op) (runOp_bounded s op h)

theorem runOps_max (s : State) (ops : List EngineOp) :
    (runOps s ops).maxUndoSize = s.maxUndoSize := by
  induction ops generalizing s with
  | nil => rfl
  | cons op ops ih => exact (ih (runOp s op)).trans (runOp_max s op)

theorem altResState_ne_altRes (k : Nat) : altResState k ≠ altRes k := by
  cases k with
  | zero =>
    rw [altResState, altRes]
    split <;> decide
  | succ k =>
    rw [altResState, altRes, altRes]
    rcases Nat.mod_two_eq_zero_or_one k with h | h
    · have h1 : (k + 1) % 2 = 1 := by omega
      simp [h, h1]
    · have h1 : (k + 1) % 2 = 0 := by omega
      simp [h, h1]

theorem apply_oneDoc (s : State) (ρ r : Resolution) (hdoc : s.doc = oneDoc ρ)
    (hr : r ≠ .unset) (hne : ρ ≠ r) :
    ApplyResolution s 0 r =
      .ok ⟨oneDoc r, pushWithLimit s.maxUndoSize s.undoStack s.doc, [], s.maxUndoSize⟩ := by
  obtain ⟨d, u, rd, m⟩ := s
  simp only at hdoc
  subst hdoc
  have hlen : (0 : Nat) < (oneDoc ρ).Conflicts.length := by simp [oneDoc]
  rw [ApplyResolution, dif_pos hlen, if_neg hr]
  have hget : getConflict (oneDoc ρ) (oneDoc ρ).Conflicts[0] =
      .ok ⟨[], [], [], [], [], [], ρ⟩ := rfl
  rw [hget]
  simp only [if_neg hne]
  rfl

theorem altState_spec (N : Nat) (k : Nat) :
    (altState N k).doc = oneDoc (altResState k) ∧ (altState N k).redoStack = [] ∧
      (altState N k).maxUndoSize = N ∧ (altState N k).undoStack.length = min k N := by
  induction k with
  | zero => exact ⟨rfl, rfl, rfl, by simp [altState]⟩
  | succ k ih =>
    obtain ⟨hdoc, hredo, hmax, hlen⟩ := ih
    have happ := apply_oneDoc (altState N k) (altResState k) (altRes k) hdoc
      (by rw [altRes]; split <;> decide) (altResState_ne_altRes k)
    rw [altState, runOp, happ]
    refine ⟨rfl, rfl, by simpa using hmax, ?_⟩
    simp only [hmax]
    rw [pushWithLimit_length, hlen]
    rcases Nat.lt_or_ge k N with h | h
    · rw [if_neg (by omega)]
      omega
    · rw [if_pos (by omega)]
      omega

theorem undoTimes_length (s : State) (j : Nat) :
    (undoTimes s j).undoStack.length = s.undoStack.length - j := by
  induction j with
  | zero => simp [undoTimes]
  | succ j ih =>
    rw [undoTimes, runOp]
    by_cases ht : (undoTimes s j).undoStack = []
    · rw [Undo, dif_pos ht]
      show (undoTimes s j).undoStack.length = s.undoStack.length - (j + 1)
      have h0 : (undoTimes s j).undoStack.length = 0 := by simp [ht]
      rw [ih] at h0
      omega
    · rw [Undo, dif_neg ht]
      show (undoTimes s j).undoStack.dropLast.length = s.undoStack.length - (j + 1)
      rw [List.length_dropLast, ih]
      omega

theorem undo_succeeds (s : State) (h : s.undoStack ≠ []) :
    ∃ s', Undo s = .ok s' := by
  rw [Undo, dif_neg h]
  exact ⟨_, rfl⟩

/-- C5: (i) after any sequence of operations on a fresh `N`-bounded state both
stacks have length at most `N`; (ii) a document-changing `ApplyResolution` or
`ApplyAll` leaves the redo stack empty; (iii) an `ApplyResolution` with the
value the conflict already holds, or an `ApplyAll` when no conflict differs,
returns the state unchanged — no snapshot, no growth; (iv) after `k > N`
genuinely mutating `ApplyResolution` calls the undo depth is exactly `N`, the
first `N` consecutive undos succeed and the `(N+1)`-th fails. -/
theorem C5_bounded_history :
    (∀ (doc : Document) (N : Nat) (ops : List EngineOp),
      (runOps ⟨doc, [], [], N⟩ ops).undoStack.length ≤ N ∧
        (runOps ⟨doc, [], [], N⟩ ops).redoStack.length ≤ N) ∧
    (∀ (s s' : State) (i : Nat) (r : Resolution),
      ApplyResolution s i r = .ok s' → s' ≠ s → s'.redoStack = []) ∧
    (∀ (s s' : State) (r : Resolution),
      ApplyAll s r = .ok s' → s' ≠ s → s'.redoStack = []) ∧
    (∀ (s : State) (i : Nat) (r : Resolution) (seg : ConflictSegment)
      (h : i < s.doc.Conflicts.length),
      getConflict s.doc (s.doc.Conflicts.get ⟨i, h⟩) = .ok seg →
      seg.Resolution = r → r ≠ .unset → ApplyResolution s i r = .ok s) ∧
    (∀ (s : State) (r : Resolution), r ≠ .unset →
      anyConflictDiffers s.doc s.doc.Conflicts r = .ok false → ApplyAll s r = .ok s) ∧
    (∀ N k, 1 ≤ N → N < k →
      UndoDepth (altState N k) = N ∧
      (∀ j < N, ∃ s', Undo (undoTimes (altState N k) j) = .ok s') ∧
      Undo (undoTimes (altState N k) N) = .error .noUndoHistory) := by
  refine ⟨?_, ?_, ?_, ?_, ?_, ?_⟩
  · intro doc N ops
    have hb := runOps_bounded ⟨doc, [], [], N⟩ ops ⟨by simp, by simp⟩
    have hm := runOps_max ⟨doc, [], [], N⟩ ops
    simp only at hm
    simp only [stacksBounded] at hb
    rw [hm] at hb
    exact hb
  · intro s s' i r happ hchanged
    rcases applyResolution_cases s i r s' happ with rfl | ⟨d, rfl⟩
    · exact absurd rfl hchanged
    · rfl
  · intro s s' r happ hchanged
    rcases applyAll_cases s r s' happ with rfl | ⟨d, rfl⟩
    · exact absurd rfl hchanged
    · rfl
  · intro s i r seg h hget hres hr
    rw [ApplyResolution, dif_pos h]
    rw [if_neg hr]
    rw [show s.doc.Conflicts[i] = s.doc.Conflicts.get ⟨i, h⟩ from rfl, hget]
    simp [hres]
  · intro s r hr hnone
    rw [ApplyAll, if_neg hr, hnone]
  · intro N k hN hk
    have hspec := altState_spec N k
    have hdepth : (altState N k).undoStack.length = N := by
      rw [hspec.2.2.2]
      omega
    refine ⟨hdepth, ?_, ?_⟩
    · intro j hj
      apply undo_succeeds
      have := undoTimes_length (altState N k) j
      rw [hdepth] at this
      intro hnil
      rw [hnil] at this
      simp at this
      omega
    · have := undoTimes_length (altState N k) N
      rw [hdepth, Nat.sub_self] at this
      rw [Undo, dif_pos (List.length_eq_zero.mp this)]

/-- C5 witness: with bound 2 and 3 mutating calls, the undo depth is exactly
2 and the third consecutive undo fails. -/
theorem C5_witness :
    UndoDepth (altState 2 3) = 2 ∧
      Undo (undoTimes (altState 2 3) 2) = .error .noUndoHistory :=
  ⟨(C5_bounded_history.2.2.2.2.2 2 3 (by decide) (by decide)).1,
   (C5_bounded_history.2.2.2.2.2 2 3 (by decide) (by decide)).2.2⟩

/-- C9: a span still containing any marker prefix leaves the conflict
untouched with no manual entry; otherwise the span is matched against Ours,
Theirs, Ours+Theirs and the empty span in that order and the first hit sets
the corresponding canonical resolution with no manual entry; a span matching
nothing records its verbatim bytes under the conflict's index and leaves the
segment untouched; and reconciling the example document against
`"line1\nmanual text\nline2\n"` leaves conflict 0 Unset with the single
manual entry `{0 ↦ "manual text\n"}`. -/
theorem C9_reconcile :
    (∀ (c : ConflictSegment) (ci : Nat) (span : List Line),
      containsConflictMarkers span = true → conflictSpanOutcome c ci span = (c, [])) ∧
    (∀ (c : ConflictSegment) (ci : Nat) (span : List Line),
      containsConflictMarkers span = false → span = splitLinesKeepEOL c.Ours →
      conflictSpanOutcome c ci span = ({ c with Resolution := .ours }, [])) ∧
    (∀ (c : ConflictSegment) (ci : Nat) (span : List Line),
      containsConflictMarkers span = false → span ≠ splitLinesKeepEOL c.Ours →
      span = splitLinesKeepEOL c.Theirs →
      conflictSpanOutcome c ci span = ({ c with Resolution := .theirs }, [])) ∧
    (∀ (c : ConflictSegment) (ci : Nat) (span : List Line),
      containsConflictMarkers span = false → span ≠ splitLinesKeepEOL c.Ours →
      span ≠ splitLinesKeepEOL c.Theirs →
      span = splitLinesKeepEOL c.Ours ++ splitLinesKeepEOL c.Theirs →
      conflictSpanOutcome c ci span = ({ c with Resolution := .both }, [])) ∧
    (∀ (c : ConflictSegment) (ci : Nat) (span : List Line),
      containsConflictMarkers span = false → span ≠ splitLinesKeepEOL c.Ours →
      span ≠ splitLinesKeepEOL c.Theirs →
      span ≠ splitLinesKeepEOL c.Ours ++ splitLinesKeepEOL c.Theirs → span = [] →
      conflictSpanOutcome c ci span = ({ c with Resolution := .none }, [])) ∧
    (∀ (c : ConflictSegment) (ci : Nat) (span : List Line),
      containsConflictMarkers span = false → (matchResolution span c).2 = false →
      conflictSpanOutcome c ci span = (c, [(ci, joinLines span)])) ∧
    applyMergedResolutions exampleDoc "line1\nmanual text\nline2\n".toList =
      .ok (exampleDoc, [(0, "manual text\n".toList)]) := by
  refine ⟨?_, ?_, ?_, ?_, ?_, ?_, by decide⟩
  · intro c ci span h
    simp [conflictSpanOutcome, h]
  · intro c ci span h hspan
    subst hspan
    have hm : matchResolution (splitLinesKeepEOL c.Ours) c = (.ours, true) := by
      simp only [matchResolution]
      simp
    simp [conflictSpanOutcome, h, hm]
  · intro c ci span h h1 hspan
    subst hspan
    have hm : matchResolution (splitLinesKeepEOL c.Theirs) c = (.theirs, true) := by
      simp only [matchResolution]
      rw [if_neg h1]
      simp
    simp [conflictSpanOutcome, h, hm]
  · intro c ci span h h1 h2 hspan
    subst hspan
    have hm : matchResolution (splitLinesKeepEOL c.Ours ++ splitLinesKeepEOL c.Theirs) c =
        (.both, true) := by
      simp only [matchResolution]
      rw [if_neg h1, if_neg h2]
      simp
    simp [conflictSpanOutcome, h, hm]
  · intro c ci span h h1 h2 h3 hspan
    subst hspan
    have hm : matchResolution [] c = (.none, true) := by
      simp only [matchResolution]
      rw [if_neg h1, if_neg h2, if_neg h3]
      simp
    simp [conflictSpanOutcome, h, hm]
  · intro c ci span h hnm
    simp [conflictSpanOutcome, h, hnm]

/-- C9 witness: a span that is exactly the example conflict's Ours sets the
Ours resolution; a span that still holds a mid marker leaves it untouched. -/
theorem C9_witness :
    conflictSpanOutcome exampleConflict 0 ["ours\n".toList] =
        ({ exampleConflict with Resolution := .ours }, []) ∧
      conflictSpanOutcome exampleConflict 0 ["=======\n".toList] = (exampleConflict, []) :=
  ⟨C9_reconcile.2.1 exampleConflict 0 ["ours\n".toList] (by decide) (by decide),
   C9_reconcile.1 exampleConflict 0 ["=======\n".toList] (by decide)⟩

theorem splitGo_nlfree (b : Bytes) (acc : Bytes) (h : '\n' ∉ b) :
    splitGo b acc = if acc ++ b = [] then [] else [acc ++ b] := by
  induction b generalizing acc with
  | nil => simp [splitGo]
  | cons c cs ih =>
    have hc : c ≠ '\n' := fun hc => h (hc ▸ List.mem_cons_self c cs)
    have hcs : '\n' ∉ cs := fun hm => h (List.mem_cons_of_mem c hm)
    rw [splitGo, if_neg hc, ih (acc ++ [c]) hcs]
    simp

theorem splitGo_until_nl (init : Bytes) (rest : Bytes) (acc : Bytes) (h : '\n' ∉ init) :
    splitGo (init ++ '\n' :: rest) acc = (acc ++ init ++ ['\n']) :: splitGo rest [] := by
  induction init generalizing acc with
  | nil => simp [splitGo]
  | cons c cs ih =>
    have hc : c ≠ '\n' := fun hc => h (hc ▸ List.mem_cons_self c cs)
    have hcs : '\n' ∉ cs := fun hm => h (List.mem_cons_of_mem c hm)
    rw [List.cons_append, splitGo, if_neg hc, ih (acc ++ [c]) hcs]
    simp

theorem split_cons_chunk (l : Line) (rest : Bytes) (h : IsNLChunk l) :
    splitLinesKeepEOL (l ++ rest) = l :: splitLinesKeepEOL rest := by
  obtain ⟨⟨hne, hinner⟩, hlast⟩ := h
  have hdecomp : l.dropLast ++ [l.getLast hne] = l := List.dropLast_append_getLast hne
  have hlastc : l.getLast hne = '\n' := by
    have := List.getLast?_eq_getLast l hne
    rw [this] at hlast
    exact (Option.some.injEq _ _).mp hlast.symm |>.symm
  rw [splitLinesKeepEOL, ← hdecomp, hlastc]
  rw [List.append_assoc, List.singleton_append]
  rw [splitGo_until_nl l.dropLast rest [] hinner]
  simp [splitLinesKeepEOL]

theorem chunked_splitGo (b : Bytes) (acc : Bytes) (h : '\n' ∉ acc) :
    ChunkedLines (splitGo b acc) := by
  induction b generalizing acc with
  | nil =>
    rw [splitGo]
    split
    · trivial
    · rename_i hne
      exact ⟨hne, by simpa using fun hm => h (List.mem_of_mem_dropLast hm)⟩
  | cons c cs ih =>
    by_cases hc : c = '\n'
    · subst hc
      rw [splitGo, if_pos rfl]
      have hrest := ih [] (by simp)
      have hchunk : IsNLChunk (acc ++ ['\n']) :=
        ⟨⟨by simp, by simpa [List.dropLast_concat] using h⟩, by simp⟩
      cases hsp : splitGo cs [] with
      | nil => exact hchunk.1
      | cons x xs =>
        rw [hsp] at hrest
        exact ⟨hchunk, hrest⟩

    · rw [splitGo, if_neg hc]
      exact ih (acc ++ [c]) (by
        intro hm
        rcases List.mem_append.mp hm with hm | hm
        · exact h hm
        · simp at hm
          exact hc hm.symm)

/-- Every split is a chunked line list. -/
theorem chunked_splitLines (b : Bytes) : ChunkedLines (splitLinesKeepEOL b) :=
  chunked_splitGo b [] (by simp)

theorem splitGo_all_nl (b : Bytes) (acc : Bytes) (hb : b.getLast? = Option.some '\n') :
    ∀ l ∈ splitGo b acc, l.getLast? = Option.some '\n' := by
  induction b generalizing acc with
  | nil => simp at hb
  | cons c cs ih =>
    intro l hl
    by_cases hc : c = '\n'
    · subst hc
      rw [splitGo, if_pos rfl] at hl
      rcases List.mem_cons.mp hl with rfl | hl
      · simp
      · cases hcs : cs with
        | nil => rw [hcs] at hl; simp [splitGo] at hl
        | cons x xs =>
          refine ih [] ?_ l hl
          rw [hcs] at hb ⊢
          simpa using hb
    · rw [splitGo, if_neg hc] at hl
      cases hcs : cs with
      | nil =>
        rw [hcs] at hb
        simp at hb
        exact absurd hb hc
      | cons x xs =>
        refine ih (acc ++ [c]) ?_ l hl
        rw [hcs] at hb ⊢
        simpa using hb

/-- Every member of a chunked line list is a proper chunk. -/
theorem chunked_mem (ls : List Line) (h : ChunkedLines ls) : ∀ l ∈ ls, IsChunk l := by
  induction ls with
  | nil => simp
  | cons x xs ih =>
    intro l hl
    cases xs with
    | nil =>
      rcases List.mem_cons.mp hl with rfl | h2
      · exact h
      · simp at h2
    | cons y ys =>
      rcases List.mem_cons.mp hl with rfl | h2
      · exact h.1.1
      · exact ih h.2 l h2

/-- Bytes that end with a newline split into newline-terminated chunks. -/
theorem split_all_nl (b : Bytes) (hb : b = [] ∨ b.getLast? = Option.some '\n') :
    ∀ l ∈ splitLinesKeepEOL b, IsNLChunk l := by
  intro l hl
  rcases hb with rfl | hb
  · simp [splitLinesKeepEOL, splitGo] at hl
  · exact ⟨chunked_mem _ (chunked_splitLines b) l hl, splitGo_all_nl b [] hb l hl⟩

/-- Splitting the concatenation of newline-terminated chunks and a remainder
splits at exactly the chunk boundaries. -/
theorem split_append_nl (xs : List Line) (rest : Bytes) (h : ∀ l ∈ xs, IsNLChunk l) :
    splitLinesKeepEOL (joinLines xs ++ rest) = xs ++ splitLinesKeepEOL rest := by
  induction xs with
  | nil => simp [joinLines]
  | cons x xs ih =>
    have hx := h x (by simp)
    have hxs : ∀ l ∈ xs, IsNLChunk l := fun l hl => h l (by simp [hl])
    rw [joinLines, List.flatten_cons, List.append_assoc,
      split_cons_chunk x _ hx]
    rw [show xs.flatten = joinLines xs from rfl, ih hxs]
    rfl

theorem length_dropWhile_ws_le (l : List Char) :
    (List.dropWhile Char.isWhitespace l).length ≤ l.length :=
  (List.dropWhile_suffix _).length_le

theorem trimmed_dropWhile_eq (x : List Char) (h : trimChars x = x) :
    x.dropWhile Char.isWhitespace = x := by
  have hsuf : x.dropWhile Char.isWhitespace <:+ x := List.dropWhile_suffix _
  apply hsuf.eq_of_length
  have h1 : (trimChars x).length ≤ (x.dropWhile Char.isWhitespace).length := by
    rw [trimChars]
    calc ((x.dropWhile Char.isWhitespace).reverse.dropWhile Char.isWhitespace).reverse.length
        = ((x.dropWhile Char.isWhitespace).reverse.dropWhile Char.isWhitespace).length := by
          rw [List.length_reverse]
      _ ≤ (x.dropWhile Char.isWhitespace).reverse.length := length_dropWhile_ws_le _
      _ = (x.dropWhile Char.isWhitespace).length := by rw [List.length_reverse]
  have h2 := length_dropWhile_ws_le x
  rw [h] at h1
  omega

theorem trimmed_back_dropWhile_eq (x : List Char) (h : trimChars x = x) :
    x.reverse.dropWhile Char.isWhitespace = x.reverse := by
  have hfront := trimmed_dropWhile_eq x h
  rw [trimChars, hfront] at h
  have := congrArg List.reverse h
  rwa [List.reverse_reverse] at this

theorem reverse_eq_getLast_cons (y : List Char) (hne : y ≠ []) :
    y.reverse = y.getLast hne :: y.dropLast.reverse := by
  conv_lhs => rw [← List.dropLast_append_getLast hne]
  rw [List.reverse_append]
  rfl

/-- A list with non-whitespace first and last characters is already trimmed. -/
theorem trim_eq_self (y : List Char)
    (hh : ∀ c t, y = c :: t → c.isWhitespace = false)
    (hl : ∀ hne : y ≠ [], (y.getLast hne).isWhitespace = false) : trimChars y = y := by
  cases y with
  | nil => rfl
  | cons c t =>
    have hc := hh c t rfl
    have hne : (c :: t) ≠ [] := by simp
    rw [trimChars]
    rw [List.dropWhile_cons, if_neg (by simp [hc])]
    rw [reverse_eq_getLast_cons (c :: t) hne, List.dropWhile_cons,
      if_neg (by simp [hl hne])]
    rw [← reverse_eq_getLast_cons (c :: t) hne, List.reverse_reverse]

theorem trimChars_head_not_ws (x : List Char) (c : Char) (t : List Char)
    (hx : trimChars x = c :: t) : c.isWhitespace = false := by
  have hz : trimChars x <+: x.dropWhile Char.isWhitespace := by
    rw [trimChars]
    have hsuf : (x.dropWhile Char.isWhitespace).reverse.dropWhile Char.isWhitespace <:+
        (x.dropWhile Char.isWhitespace).reverse := List.dropWhile_suffix _
    obtain ⟨pre, hpre⟩ := hsuf
    exact ⟨pre.reverse, by rw [← List.reverse_append, hpre, List.reverse_reverse]⟩
  obtain ⟨r, hr⟩ := hz
  rw [hx] at hr
  have hy : (x.dropWhile Char.isWhitespace).head? = Option.some c := by
    rw [← hr]; rfl
  have := List.head?_dropWhile_not (fun c => Char.isWhitespace c) x
  rw [hy] at this
  simpa using this

theorem trimChars_getLast_not_ws (x : List Char) (hne : trimChars x ≠ []) :
    ((trimChars x).getLast hne).isWhitespace = false := by
  have hy : (trimChars x).reverse.head? = Option.some ((trimChars x).getLast hne) := by
    rw [← List.getLast?_eq_getLast _ hne, List.head?_reverse]
  have hdw : (x.dropWhile Char.isWhitespace).reverse.dropWhile Char.isWhitespace =
      (trimChars x).reverse := by
    rw [trimChars, List.reverse_reverse]
  have := List.head?_dropWhile_not (fun c => Char.isWhitespace c)
    (x.dropWhile Char.isWhitespace).reverse
  rw [hdw, hy] at this
  simpa using this

/-- Trimming is idempotent. -/
theorem trimChars_idem (x : List Char) : trimChars (trimChars x) = trimChars x := by
  apply trim_eq_self
  · intro c t hct
    exact trimChars_head_not_ws x c t hct
  · intro hne
    exact trimChars_getLast_not_ws x hne

/-- Trimming bytes whose only newline is terminal yields newline-free text. -/
theorem noNL_trimChars (x : List Char) (h : '\n' ∉ x.dropLast) : '\n' ∉ trimChars x := by
  intro hmem
  rw [trimChars, List.mem_reverse] at hmem
  have hsub := (List.dropWhile_suffix (l := (x.dropWhile Char.isWhitespace).reverse)
    (fun c => Char.isWhitespace c)).subset
  by_cases hy : x.dropWhile Char.isWhitespace = []
  · rw [hy] at hmem
    simp at hmem
  · have hydl : '\n' ∉ (x.dropWhile Char.isWhitespace).dropLast := by
      obtain ⟨pre, hpre⟩ := List.dropWhile_suffix (l := x) (fun c => Char.isWhitespace c)
      intro hm
      apply h
      rw [← hpre]
      cases hyy : x.dropWhile Char.isWhitespace with
      | nil => exact absurd hyy hy
      | cons b bt =>
        rw [List.dropLast_append_cons]
        rw [hyy] at hm
        exact List.mem_append.mpr (Or.inr hm)
    have hrev : (x.dropWhile Char.isWhitespace).reverse =
        (x.dropWhile Char.isWhitespace).getLast hy ::
          (x.dropWhile Char.isWhitespace).dropLast.reverse := by
      conv_lhs => rw [← List.dropLast_append_getLast hy]
      rw [List.reverse_append]
      rfl
    by_cases hlast : (x.dropWhile Char.isWhitespace).getLast hy = '\n'
    · rw [hrev, List.dropWhile_cons, if_pos (by simp [hlast])] at hmem
      have := (List.dropWhile_suffix (l := (x.dropWhile Char.isWhitespace).dropLast.reverse)
        (fun c => Char.isWhitespace c)).subset hmem
      rw [List.mem_reverse] at this
      exact hydl this
    · have := hsub hmem
      rw [hrev] at this
      rcases List.mem_cons.mp this with heq | hm
      · exact hlast heq.symm
      · rw [List.mem_reverse] at hm
        exact hydl hm

theorem mem_dropLast_drop (a : Char) (k : Nat) (l : List Char)
    (h : a ∈ (l.drop k).dropLast) : a ∈ l.dropLast := by
  induction k generalizing l with
  | zero => simpa using h
  | succ k ih =>
    cases l with
    | nil => simp at h
    | cons x t =>
      rw [List.drop_succ_cons] at h
      have hmem := ih t h
      cases t with
      | nil => simp at hmem
      | cons y zs =>
        rw [List.dropLast_cons₂]
        exact List.mem_cons_of_mem x hmem

/-- The marker line begins with its marker. -/
theorem hasLineMarker_markerLine (m : List Char) (l : List Char) :
    hasLineMarker (markerLine m l) m = true := by
  rw [hasLineMarker, markerLine, List.isPrefixOf_iff_prefix, List.append_assoc]
  exact List.prefix_append m _

/-- Parsing the label back out of a rendered marker line recovers it. -/
theorem parseLabel_markerLine (m : List Char) (l : List Char) (hl : trimChars l = l) :
    parseLabel (markerLine m l) m = l := by
  rw [parseLabel, if_pos (hasLineMarker_markerLine m l)]
  rw [markerLine, List.append_assoc, List.drop_left]
  by_cases hnil : l = []
  · subst hnil
    rfl
  · rw [if_neg hnil]
    obtain ⟨c, t, rfl⟩ := List.exists_cons_of_ne_nil hnil
    have hc : c.isWhitespace = false := trimChars_head_not_ws (c :: t) c t hl
    rw [trimChars]
    rw [show (' ' :: c :: t) ++ ['\n'] = ' ' :: (c :: (t ++ ['\n'])) by simp]
    rw [List.dropWhile_cons, if_pos (by decide)]
    rw [List.dropWhile_cons, if_neg (by simp [hc])]
    rw [show c :: (t ++ ['\n']) = (c :: t) ++ ['\n'] by simp]
    rw [List.reverse_concat]
    rw [List.dropWhile_cons, if_pos (by decide)]
    rw [trimmed_back_dropWhile_eq (c :: t) hl, List.reverse_reverse]

/-- Any label the parser extracts from a proper line is trimmed and
newline-free. -/
theorem parseLabel_wf (line : Line) (m : List Char) (hline : '\n' ∉ line.dropLast) :
    trimChars (parseLabel line m) = parseLabel line m ∧ '\n' ∉ parseLabel line m := by
  rw [parseLabel]
  split
  · exact ⟨trimChars_idem _,
      noNL_trimChars _ (fun hm => hline (mem_dropLast_drop '\n' m.length line hm))⟩
  · exact ⟨rfl, by simp⟩

/-- Splitting the concatenation of a chunked line list recovers it. -/
theorem split_join_chunked (ls : List Line) (h : ChunkedLines ls) :
    splitLinesKeepEOL (joinLines ls) = ls := by
  induction ls with
  | nil => simp [joinLines, splitLinesKeepEOL, splitGo]
  | cons x xs ih =>
    cases xs with
    | nil =>
      rcases h with ⟨hne, hinner⟩
      by_cases hlast : x.getLast? = Option.some '\n'
      · have := split_cons_chunk x [] ⟨⟨hne, hinner⟩, hlast⟩
        simpa [joinLines, splitLinesKeepEOL, splitGo] using this
      · have hnl : '\n' ∉ x := by
          intro hm
          rcases List.mem_append.mp ((List.dropLast_append_getLast hne) ▸ hm) with hm | hm
          · exact hinner hm
          · simp at hm
            rw [List.getLast?_eq_getLast x hne, hm] at hlast
            exact hlast rfl
        rw [joinLines]
        simp only [List.flatten_cons, List.flatten_nil, List.append_nil]
        rw [splitLinesKeepEOL, splitGo_nlfree x [] hnl]
        simp [hne]
    | cons y ys =>
      rw [joinLines, List.flatten_cons, split_cons_chunk x _ h.1]
      rw [show (y :: ys).flatten = joinLines (y :: ys) from rfl, ih h.2]


theorem parseRun_append (acc : PAcc) (st : MState) (xs ys : List Line) :
    parseRun acc st (xs ++ ys) =
      parseRun (stepAll acc st xs).1 (stepAll acc st xs).2 ys := by
  induction xs generalizing acc st with
  | nil => rfl
  | cons l ls ih =>
    rw [List.cons_append, parseRun, stepAll]
    exact ih _ _

theorem stepAll_text (acc : PAcc) (tAcc : Bytes) (ls : List Line)
    (h : ∀ l ∈ ls, hasLineMarker l markStart = false) :
    stepAll acc (.text tAcc) ls = (acc, .text (tAcc ++ joinLines ls)) := by
  induction ls generalizing tAcc with
  | nil => simp [stepAll, joinLines]
  | cons l ls ih =>
    have hl := h l (by simp)
    rw [stepAll, parseStep]
    simp only [hl, Bool.false_eq_true, if_false]
    rw [ih (tAcc ++ l) (fun x hx => h x (by simp [hx]))]
    simp [joinLines]

theorem stepAll_ours (acc : PAcc) (oL : List Char) (o : Bytes) (ls : List Line)
    (h : ∀ l ∈ ls, hasLineMarker l markBase = false ∧ hasLineMarker l markMid = false) :
    stepAll acc (.ours oL o) ls = (acc, .ours oL (o ++ joinLines ls)) := by
  induction ls generalizing o with
  | nil => simp [stepAll, joinLines]
  | cons l ls ih =>
    have hl := h l (by simp)
    rw [stepAll, parseStep]
    simp only [hl.1, hl.2, Bool.false_eq_true, if_false]
    rw [ih (o ++ l) (fun x hx => h x (by simp [hx]))]
    simp [joinLines]

theorem stepAll_base (acc : PAcc) (oL : List Char) (o : Bytes) (bL : List Char) (b : Bytes)
    (ls : List Line) (h : ∀ l ∈ ls, hasLineMarker l markMid = false) :
    stepAll acc (.base oL o bL b) ls = (acc, .base oL o bL (b ++ joinLines ls)) := by
  induction ls generalizing b with
  | nil => simp [stepAll, joinLines]
  | cons l ls ih =>
    have hl := h l (by simp)
    rw [stepAll, parseStep]
    simp only [hl, Bool.false_eq_true, if_false]
    rw [ih (b ++ l) (fun x hx => h x (by simp [hx]))]
    simp [joinLines]

theorem stepAll_theirs (acc : PAcc) (oL : List Char) (o : Bytes) (bL : List Char) (b : Bytes)
    (t : Bytes) (ls : List Line) (h : ∀ l ∈ ls, hasLineMarker l markEnd = false) :
    stepAll acc (.theirs oL o bL b t) ls = (acc, .theirs oL o bL b (t ++ joinLines ls)) := by
  induction ls generalizing t with
  | nil => simp [stepAll, joinLines]
  | cons l ls ih =>
    have hl := h l (by simp)
    rw [stepAll, parseStep]
    simp only [hl, Bool.false_eq_true, if_false]
    rw [ih (t ++ l) (fun x hx => h x (by simp [hx]))]
    simp [joinLines]

theorem refsFrom_append (xs ys : List Segment) (k : Nat) :
    refsFrom (xs ++ ys) k = refsFrom xs k ++ refsFrom ys (k + xs.length) := by
  induction xs generalizing k with
  | nil => simp [refsFrom]
  | cons s rest ih =>
    cases s with
    | text b =>
      rw [List.cons_append, refsFrom, refsFrom, ih (k + 1)]
      simp only [List.length_cons, List.nil_append]
      congr 2
      omega
    | conflict c =>
      rw [List.cons_append, refsFrom, refsFrom, ih (k + 1)]
      simp only [List.length_cons, List.cons_append]
      congr 3
      omega

theorem wfSegs_of_A (segs : List Segment) (h : wfSegsA segs) : wfSegs segs := by
  induction segs with
  | nil => trivial
  | cons s rest ih =>
    cases s with
    | text t =>
      cases rest with
      | nil => exact absurd h (by rw [wfSegsA]; simp)
      | cons s2 r2 =>
        rw [wfSegsA] at h
        exact ⟨h.1, h.2.1, h.2.2.1, ih h.2.2.2⟩
    | conflict c =>
      rw [wfSegsA] at h
      rw [wfSegs]
      exact ⟨h.1, ih h.2⟩

theorem wfSegsA_append_text (segs : List Segment) (t : Bytes) (h : wfSegsA segs)
    (ht : wfText t) : wfSegs (segs ++ [.text t]) := by
  induction segs with
  | nil => exact ht
  | cons s rest ih =>
    cases s with
    | text t2 =>
      cases rest with
      | nil => exact absurd h (by rw [wfSegsA]; simp)
      | cons s2 r2 =>
        rw [wfSegsA] at h
        exact ⟨h.1, h.2.1, h.2.2.1, ih h.2.2.2⟩
    | conflict c =>
      rw [wfSegsA] at h
      cases rest with
      | nil => exact ⟨h.1, ht⟩
      | cons s2 r2 => exact ⟨h.1, ih h.2⟩

theorem wfSegsA_append_conflict (segs : List Segment) (c : ConflictSegment)
    (h : wfSegsA segs) (hc : wfConflict c) : wfSegsA (segs ++ [.conflict c]) := by
  induction segs with
  | nil => exact ⟨hc, trivial⟩
  | cons s rest ih =>
    cases s with
    | text t2 =>
      cases rest with
      | nil => exact absurd h (by rw [wfSegsA]; simp)
      | cons s2 r2 =>
        rw [wfSegsA] at h
        exact ⟨h.1, h.2.1, h.2.2.1, ih h.2.2.2⟩
    | conflict c2 =>
      rw [wfSegsA] at h
      exact ⟨h.1, ih h.2⟩

theorem wfSegsA_append_text_conflict (segs : List Segment) (t : Bytes) (c : ConflictSegment)
    (h : wfSegsA segs) (ht : wfText t) (hnl : t.getLast? = Option.some '\n')
    (hc : wfConflict c) : wfSegsA (segs ++ [.text t, .conflict c]) := by
  induction segs with
  | nil => exact ⟨ht, hnl, trivial, hc, trivial⟩
  | cons s rest ih =>
    cases s with
    | text t2 =>
      cases rest with
      | nil => exact absurd h (by rw [wfSegsA]; simp)
      | cons s2 r2 =>
        rw [wfSegsA] at h
        exact ⟨h.1, h.2.1, h.2.2.1, ih h.2.2.2⟩
    | conflict c2 =>
      rw [wfSegsA] at h
      cases rest with
      | nil => exact ⟨h.1, ht, hnl, trivial, hc, trivial⟩
      | cons s2 r2 => exact ⟨h.1, ih h.2⟩


theorem joinLines_cons (l : Line) (ls : List Line) :
    joinLines (l :: ls) = l ++ joinLines ls := by
  simp [joinLines]

theorem joinLines_append (xs ys : List Line) :
    joinLines (xs ++ ys) = joinLines xs ++ joinLines ys := by
  simp [joinLines]

theorem joinLines_blockLines (c : ConflictSegment) :
    joinLines (blockLines c) = unresolvedBlock c := by
  rw [blockLines, unresolvedBlock]
  rw [joinLines_cons, joinLines_append, joinLines_append, joinLines_cons,
    joinLines_append]
  rw [joinLines_splitLinesKeepEOL, joinLines_splitLinesKeepEOL]
  by_cases hb : c.Base = [] ∧ c.BaseLabel = []
  · rw [if_pos hb, if_pos hb]
    simp [joinLines]
  · rw [if_neg hb, if_neg hb]
    rw [joinLines_cons, joinLines_splitLinesKeepEOL]
    simp [joinLines]

theorem foldl_renderWUStep (segs : List Segment) (out : Bytes)
    (h : ∀ seg ∈ segs, segUnset seg) :
    segs.foldl renderWUStep out = out ++ joinLines (segs.flatMap segLines) := by
  induction segs generalizing out with
  | nil => simp [joinLines]
  | cons seg rest ih =>
    have hseg := h seg (by simp)
    have hrest : ∀ s ∈ rest, segUnset s := fun s hs => h s (by simp [hs])
    rw [List.foldl_cons, List.flatMap_cons, joinLines_append]
    cases seg with
    | text b =>
      rw [show renderWUStep out (.text b) = out ++ b from rfl, ih _ hrest]
      rw [show segLines (.text b) = splitLinesKeepEOL b from rfl,
        joinLines_splitLinesKeepEOL, List.append_assoc]
    | conflict c =>
      have hc : c.Resolution = .unset := hseg
      rw [show renderWUStep out (.conflict c) = out ++ unresolvedBlock c by
        rw [renderWUStep, resolvedBytes, hc]]
      rw [ih _ hrest]
      rw [show segLines (.conflict c) = blockLines c from rfl, joinLines_blockLines,
        List.append_assoc]

/-- With every conflict unset, the permissive rendering is the concatenation
of the per-segment line lists. -/
theorem renderWU_eq (doc : Document) (h : ∀ seg ∈ doc.Segments, segUnset seg) :
    RenderWithUnresolved doc = joinLines (doc.Segments.flatMap segLines) := by
  rw [RenderWithUnresolved, foldl_renderWUStep _ _ h]
  rfl

theorem chunked_of_NL (ls : List Line) (h : NLLines ls) : ChunkedLines ls := by
  induction ls with
  | nil => trivial
  | cons x xs ih =>
    cases xs with
    | nil => exact (h x (by simp)).1
    | cons y ys =>
      exact ⟨h x (by simp), ih fun l hl => h l (by simp [hl])⟩

theorem chunked_append_NL (xs ys : List Line) (hx : NLLines xs) (hy : ChunkedLines ys) :
    ChunkedLines (xs ++ ys) := by
  induction xs with
  | nil => simpa using hy
  | cons x rest ih =>
    have hx1 := hx x (by simp)
    have hrest := ih fun l hl => hx l (by simp [hl])
    rw [List.cons_append]
    cases hres : rest ++ ys with
    | nil => exact hx1.1
    | cons z zs => exact ⟨hx1, by rw [← hres]; exact hrest⟩

theorem NLLines_append (xs ys : List Line) (hx : NLLines xs) (hy : NLLines ys) :
    NLLines (xs ++ ys) := by
  intro l hl
  rcases List.mem_append.mp hl with h | h
  · exact hx l h
  · exact hy l h

theorem markerLine_NLChunk (m : List Char) (l : List Char) (hm : m ≠ [])
    (hmnl : '\n' ∉ m) (hlnl : '\n' ∉ l) : IsNLChunk (markerLine m l) := by
  refine ⟨⟨by simp [markerLine], ?_⟩, ?_⟩
  · rw [markerLine, List.dropLast_concat]
    intro hmem
    rcases List.mem_append.mp hmem with h | h
    · exact hmnl h
    · split at h
      · simp at h
      · rcases List.mem_cons.mp h with h | h
        · simp at h
        · exact hlnl h
  · rw [markerLine]
    rw [show m ++ (if l = [] then [] else ' ' :: l) ++ ['\n'] =
      (m ++ (if l = [] then [] else ' ' :: l)) ++ ['\n'] by simp]
    rw [List.getLast?_concat]

theorem blockLines_NL (c : ConflictSegment) (h : wfConflict c) : NLLines (blockLines c) := by
  obtain ⟨ho, hb, ht, _, _, _, hoL, hbL, htL, _⟩ := h
  rw [blockLines]
  intro l hl
  rcases List.mem_cons.mp hl with rfl | hl
  · exact markerLine_NLChunk _ _ (by decide) (by decide) hoL.2
  · rcases List.mem_append.mp hl with hl | hl
    · rcases List.mem_append.mp hl with hl | hl
      · exact split_all_nl c.Ours ho l hl
      · split at hl
        · simp at hl
        · rcases List.mem_cons.mp hl with rfl | hl
          · exact markerLine_NLChunk _ _ (by decide) (by decide) hbL.2
          · exact split_all_nl c.Base hb l hl
    · rcases List.mem_cons.mp hl with rfl | hl
      · exact markerLine_NLChunk _ _ (by decide) (by decide) (by simp)
      · rcases List.mem_append.mp hl with hl | hl
        · exact split_all_nl c.Theirs ht l hl
        · rcases List.mem_cons.mp hl with rfl | hl
          · exact markerLine_NLChunk _ _ (by decide) (by decide) htL.2
          · simp at hl

theorem chunked_segLines (segs : List Segment) (h : wfSegs segs) :
    ChunkedLines (segs.flatMap segLines) := by
  induction segs with
  | nil => trivial
  | cons s rest ih =>
    cases s with
    | text t =>
      cases rest with
      | nil =>
        rw [List.flatMap_cons]
        simpa [segLines] using chunked_splitLines t
      | cons s2 r2 =>
        rw [wfSegs] at h
        rw [List.flatMap_cons]
        refine chunked_append_NL _ _ ?_ (ih h.2.2.2)
        exact fun l hl => split_all_nl t (Or.inr h.2.1) l hl
    | conflict c =>
      rw [wfSegs] at h
      rw [List.flatMap_cons]
      exact chunked_append_NL _ _ (blockLines_NL c h.1) (ih h.2)

theorem wfSegs_unset (segs : List Segment) (h : wfSegs segs) :
    ∀ seg ∈ segs, segUnset seg := by
  induction segs with
  | nil => simp
  | cons s rest ih =>
    intro seg hseg
    cases s with
    | text t =>
      rcases List.mem_cons.mp hseg with rfl | hm
      · trivial
      · cases rest with
        | nil => simp at hm
        | cons s2 r2 =>
          rw [wfSegs] at h
          exact ih h.2.2.2 seg hm
    | conflict c =>
      rw [wfSegs] at h
      rcases List.mem_cons.mp hseg with rfl | hm
      · exact h.1.2.2.2.2.2.2.2.2.2
      · exact ih h.2 seg hm

/-- Splitting the permissive rendering of a well-formed document yields
exactly the per-segment line lists. -/
theorem split_render (doc : Document) (h : wfSegs doc.Segments) :
    splitLinesKeepEOL (RenderWithUnresolved doc) = doc.Segments.flatMap segLines := by
  rw [renderWU_eq doc (wfSegs_unset _ h)]
  exact split_join_chunked _ (chunked_segLines _ h)


/-! ## The parser consumes a rendered conflict block (C4) -/

theorem parseStep_start (acc : PAcc) (tAcc : Bytes) (oL : List Char)
    (hoL : trimChars oL = oL) :
    parseStep acc (.text tAcc) (markerLine markStart oL) =
      (flushText acc tAcc, .ours oL []) := by
  rw [parseStep, if_pos (hasLineMarker_markerLine markStart oL),
    parseLabel_markerLine markStart oL hoL]

theorem parseStep_baseMarker (acc : PAcc) (oL : List Char) (o : Bytes) (bL : List Char)
    (hbL : trimChars bL = bL) :
    parseStep acc (.ours oL o) (markerLine markBase bL) =
      (acc, .base oL o bL []) := by
  rw [parseStep, if_pos (hasLineMarker_markerLine markBase bL),
    parseLabel_markerLine markBase bL hbL]

theorem parseStep_midFromOurs (acc : PAcc) (oL : List Char) (o : Bytes) :
    parseStep acc (.ours oL o) (markerLine markMid []) = (acc, .theirs oL o [] [] []) := by
  rw [parseStep, if_neg (by decide), if_pos (by decide)]

theorem parseStep_midFromBase (acc : PAcc) (oL : List Char) (o : Bytes) (bL : List Char)
    (b : Bytes) :
    parseStep acc (.base oL o bL b) (markerLine markMid []) =
      (acc, .theirs oL o bL b []) := by
  rw [parseStep, if_pos (by decide)]

theorem parseStep_end (acc : PAcc) (oL : List Char) (o : Bytes) (bL : List Char) (b : Bytes)
    (t : Bytes) (tL : List Char) (htL : trimChars tL = tL) :
    parseStep acc (.theirs oL o bL b t) (markerLine markEnd tL) =
      (pushConflict acc
        { Ours := o, Base := b, Theirs := t, OursLabel := oL, BaseLabel := bL
          TheirsLabel := tL, Resolution := .unset }, .text []) := by
  rw [parseStep, if_pos (hasLineMarker_markerLine markEnd tL),
    parseLabel_markerLine markEnd tL htL]

theorem parseRun_block (c : ConflictSegment) (hc : wfConflict c) (acc : PAcc) (tAcc : Bytes)
    (more : List Line) :
    parseRun acc (.text tAcc) (blockLines c ++ more) =
      parseRun (pushConflict (flushText acc tAcc) c) (.text []) more := by
  obtain ⟨cOurs, cBase, cTheirs, cOL, cBL, cTL, cRes⟩ := c
  obtain ⟨ho, hb, ht, hoursf, hbasef, htheirsf, hoL, hbL, htL, hres⟩ := hc
  simp only at ho hb ht hoursf hbasef htheirsf hoL hbL htL hres
  subst hres
  rw [blockLines]
  simp only [List.cons_append, List.append_assoc]
  rw [parseRun]
  rw [parseStep_start acc tAcc cOL hoL.1]
  rw [parseRun_append _ _ (splitLinesKeepEOL cOurs) _]
  rw [stepAll_ours _ _ _ _ hoursf]
  simp only [List.nil_append, joinLines_splitLinesKeepEOL]
  by_cases hbase : cBase = [] ∧ cBL = []
  · rw [if_pos (by exact hbase)]
    rw [List.nil_append, parseRun]
    rw [parseStep_midFromOurs]
    rw [parseRun_append _ _ (splitLinesKeepEOL cTheirs) _]
    rw [stepAll_theirs _ _ _ _ _ _ _ htheirsf]
    simp only [List.nil_append, joinLines_splitLinesKeepEOL]
    rw [parseRun]
    rw [parseStep_end _ _ _ _ _ _ _ htL.1]
    rw [hbase.1, hbase.2]
  · rw [if_neg (by exact hbase)]
    rw [List.cons_append, parseRun]
    rw [parseStep_baseMarker _ _ _ _ hbL.1]
    rw [parseRun_append _ _ (splitLinesKeepEOL cBase) _]
    rw [stepAll_base _ _ _ _ _ _ hbasef]
    simp only [List.nil_append, joinLines_splitLinesKeepEOL]
    rw [parseRun]
    rw [parseStep_midFromBase]
    rw [parseRun_append _ _ (splitLinesKeepEOL cTheirs) _]
    rw [stepAll_theirs _ _ _ _ _ _ _ htheirsf]
    simp only [List.nil_append, joinLines_splitLinesKeepEOL]
    rw [parseRun]
    rw [parseStep_end _ _ _ _ _ _ _ htL.1]


/-- Parsing the rendered lines of a well-formed segment list appends exactly
those segments and their canonical conflict refs. -/
theorem parse_segs : ∀ (segs : List Segment) (acc : PAcc), wfSegs segs →
    parseRun acc (.text []) (segs.flatMap segLines) =
      .ok ⟨acc.segs ++ segs, acc.confls ++ refsFrom segs acc.segs.length⟩
  | [], acc, h => by
    simp [parseRun, parseFinish, flushText, refsFrom]
  | [.text t], acc, h => by
    have hne : t ≠ [] := h.1
    have hns : noStartLines t := h.2
    rw [List.flatMap_cons, List.flatMap_nil, List.append_nil]
    rw [show segLines (.text t) = splitLinesKeepEOL t from rfl]
    rw [show splitLinesKeepEOL t = splitLinesKeepEOL t ++ [] by simp]
    rw [parseRun_append, stepAll_text _ _ _ hns]
    simp only [List.nil_append, joinLines_splitLinesKeepEOL]
    rw [parseRun, parseFinish, flushText, if_neg hne]
    simp [refsFrom]
  | .text t :: .text t2 :: rest, acc, h => by
    exact h.2.2.1.elim
  | .text t :: .conflict c :: rest, acc, h => by
    obtain ⟨⟨hne, hns⟩, hnl, _, hc, hrest⟩ := h
    rw [List.flatMap_cons, List.flatMap_cons, ← List.append_assoc]
    rw [show segLines (.text t) = splitLinesKeepEOL t from rfl,
      show segLines (.conflict c) = blockLines c from rfl]
    rw [List.append_assoc, parseRun_append, stepAll_text _ _ _ hns]
    simp only [List.nil_append, joinLines_splitLinesKeepEOL]
    rw [parseRun_block c hc _ t _]
    rw [parse_segs rest _ hrest]
    rw [flushText, if_neg hne]
    simp only [pushConflict, List.append_assoc, List.length_append, List.cons_append,
      List.nil_append, List.singleton_append]
    rw [refsFrom, refsFrom]
    simp only [List.length_cons, List.length_nil]
  | .conflict c :: rest, acc, h => by
    obtain ⟨hc, hrest⟩ := h
    rw [List.flatMap_cons]
    rw [show segLines (.conflict c) = blockLines c from rfl]
    rw [parseRun_block c hc _ [] _]
    rw [parse_segs rest _ hrest]
    rw [show flushText acc [] = acc from rfl]
    simp only [pushConflict, List.append_assoc, List.length_append, List.cons_append,
      List.nil_append, List.singleton_append]
    rw [refsFrom]
    simp only [List.length_cons, List.length_nil]
termination_by segs acc h => segs.length


/-- Re-parsing the permissive rendering of a well-formed document recovers
the document exactly. -/
theorem render_roundtrip (doc : Document) (h : WFDoc doc) :
    Parse (RenderWithUnresolved doc) = .ok doc := by
  obtain ⟨hsegs, hconfls⟩ := h
  rw [Parse, split_render doc hsegs]
  rw [parse_segs doc.Segments ⟨[], []⟩ hsegs]
  obtain ⟨segs, confls⟩ := doc
  simp only at hconfls
  simp [hconfls]

/-! ## The parser only produces well-formed documents (C4) -/

theorem chunked_cons (l : Line) (ls : List Line) (h : ChunkedLines (l :: ls)) :
    IsChunk l ∧ ChunkedLines ls ∧ (ls ≠ [] → l.getLast? = Option.some '\n') := by
  cases ls with
  | nil => exact ⟨h, trivial, fun hne => absurd rfl hne⟩
  | cons y ys => exact ⟨h.1.1, h.2, fun _ => h.1.2⟩

/-- A single chunk splits into itself. -/
theorem split_chunk_self (l : Line) (h : IsChunk l) : splitLinesKeepEOL l = [l] := by
  by_cases hnl : l.getLast? = Option.some '\n'
  · have := split_cons_chunk l [] ⟨h, hnl⟩
    simpa [splitLinesKeepEOL, splitGo] using this
  · have hfree : '\n' ∉ l := by
      intro hm
      rcases List.mem_append.mp ((List.dropLast_append_getLast h.1) ▸ hm) with hm | hm
      · exact h.2 hm
      · simp at hm
        apply hnl
        rw [List.getLast?_eq_getLast l h.1, ← hm]
    rw [splitLinesKeepEOL, splitGo_nlfree l [] hfree]
    simp [h.1]

/-- Appending one chunk to newline-terminated bytes appends one line. -/
theorem split_append_chunk (b : Bytes) (l : Line) (hb : b = [] ∨ b.getLast? = Option.some '\n')
    (hl : IsChunk l) : splitLinesKeepEOL (b ++ l) = splitLinesKeepEOL b ++ [l] := by
  rcases hb with rfl | hb
  · simpa [splitLinesKeepEOL, splitGo] using split_chunk_self l hl
  · have hnl := split_all_nl b (Or.inr hb)
    have := split_append_nl (splitLinesKeepEOL b) l hnl
    rw [joinLines_splitLinesKeepEOL] at this
    rw [this, split_chunk_self l hl]

theorem endsNL_append_chunk (b : Bytes) (l : Line) (hl : l.getLast? = Option.some '\n') :
    (b ++ l).getLast? = Option.some '\n' := by
  rw [List.getLast?_append, hl]
  rfl

theorem pending_resolve (x : Bytes) (l : Line) (ls : List Line)
    (h : pending x (l :: ls)) : endsNL x := by
  rcases h with h | h | h
  · exact Or.inl h
  · exact Or.inr h
  · simp at h

theorem flushText_confls (acc : PAcc) (tAcc : Bytes) :
    (flushText acc tAcc).confls = acc.confls := by
  rw [flushText]
  split <;> rfl

theorem flushText_refs (acc : PAcc) (tAcc : Bytes) (h : acc.confls = refsFrom acc.segs 0) :
    (flushText acc tAcc).confls = refsFrom (flushText acc tAcc).segs 0 := by
  rw [flushText]
  split
  · exact h
  · simp only
    rw [refsFrom_append, h]
    simp [refsFrom]

theorem pushConflict_refs (acc : PAcc) (c : ConflictSegment)
    (h : acc.confls = refsFrom acc.segs 0) :
    (pushConflict acc c).confls = refsFrom (pushConflict acc c).segs 0 := by
  rw [pushConflict]
  simp only
  rw [refsFrom_append, h, refsFrom, refsFrom]
  simp


theorem forall_split_nil (P : Line → Prop) : ∀ l ∈ splitLinesKeepEOL [], P l := by
  intro l hl
  simp [splitLinesKeepEOL, splitGo] at hl

/-- Any successful parse from an invariant-respecting machine state yields a
well-formed document. -/
theorem parseRun_wf : ∀ (ls : List Line) (acc : PAcc) (st : MState) (doc : Document),
    ChunkedLines ls → MInv acc st ls → parseRun acc st ls = .ok doc → WFDoc doc
  | [], acc, st, doc, _, hinv, hrun => by
    cases st with
    | text tAcc =>
      rw [parseRun, parseFinish] at hrun
      obtain ⟨hconfls, hA, hns, _⟩ := hinv
      injection hrun with hdoc
      subst hdoc
      constructor
      · rw [flushText]
        split
        · exact wfSegs_of_A _ hA
        · rename_i hne
          exact wfSegsA_append_text _ _ hA ⟨hne, hns⟩
      · exact flushText_refs acc tAcc hconfls
    | ours oL o =>
      rw [parseRun, parseFinish] at hrun
      cases hrun
    | base oL o bL b =>
      rw [parseRun, parseFinish] at hrun
      cases hrun
    | theirs oL o bL b t =>
      rw [parseRun, parseFinish] at hrun
      cases hrun
  | l :: ls, acc, st, doc, hch, hinv, hrun => by
    obtain ⟨hlchunk, hchtail, hnltail⟩ := chunked_cons l ls hch
    rw [parseRun] at hrun
    cases st with
    | text tAcc =>
      obtain ⟨hconfls, hA, hns, hpend⟩ := hinv
      by_cases hs : hasLineMarker l markStart = true
      · simp only [parseStep, hs, if_true] at hrun
        refine parseRun_wf ls _ _ doc hchtail ?_ hrun
        refine ⟨flushText_refs acc tAcc hconfls, ?_,
          ⟨(parseLabel_wf l markStart hlchunk.2).1, (parseLabel_wf l markStart hlchunk.2).2⟩,
          forall_split_nil _, Or.inl rfl⟩
        rw [flushText]
        split
        · exact Or.inl hA
        · rename_i hne
          right
          refine ⟨acc.segs, tAcc, rfl, hA, ⟨hne, hns⟩, ?_⟩
          rcases pending_resolve tAcc l ls hpend with h0 | h0
          · exact absurd h0 hne
          · exact h0
      · simp only [parseStep, hs, Bool.false_eq_true, if_false] at hrun
        refine parseRun_wf ls _ _ doc hchtail ?_ hrun
        refine ⟨hconfls, hA, ?_, ?_⟩
        · intro x hx
          rw [split_append_chunk tAcc l (pending_resolve tAcc l ls hpend) hlchunk] at hx
          rcases List.mem_append.mp hx with hx | hx
          · exact hns x hx
          · simp at hx
            subst hx
            simpa using hs
        · cases hls : ls with
          | nil => exact Or.inr (Or.inr rfl)
          | cons y ys =>
            exact Or.inr (Or.inl (endsNL_append_chunk tAcc l (hnltail (by simp [hls]))))
    | ours oL o =>
      obtain ⟨hconfls, hP, hoL, hom, hpend⟩ := hinv
      by_cases hbm : hasLineMarker l markBase = true
      · simp only [parseStep, hbm, if_true] at hrun
        refine parseRun_wf ls _ _ doc hchtail ?_ hrun
        exact ⟨hconfls, hP, hoL,
          ⟨(parseLabel_wf l markBase hlchunk.2).1, (parseLabel_wf l markBase hlchunk.2).2⟩,
          pending_resolve o l ls hpend, hom, forall_split_nil _, Or.inl rfl⟩
      · by_cases hmm : hasLineMarker l markMid = true
        · simp only [parseStep, hbm, hmm, Bool.false_eq_true, if_false, if_true] at hrun
          refine parseRun_wf ls _ _ doc hchtail ?_ hrun
          exact ⟨hconfls, hP, hoL, ⟨rfl, by simp⟩, pending_resolve o l ls hpend, hom,
            Or.inl rfl, forall_split_nil _, forall_split_nil _, Or.inl rfl⟩
        · simp only [parseStep, hbm, hmm, Bool.false_eq_true, if_false] at hrun
          refine parseRun_wf ls _ _ doc hchtail ?_ hrun
          refine ⟨hconfls, hP, hoL, ?_, ?_⟩
          · intro x hx
            rw [split_append_chunk o l (pending_resolve o l ls hpend) hlchunk] at hx
            rcases List.mem_append.mp hx with hx | hx
            · exact hom x hx
            · simp at hx
              subst hx
              exact ⟨by simpa using hbm, by simpa using hmm⟩
          · cases hls : ls with
            | nil => exact Or.inr (Or.inr rfl)
            | cons y ys =>
              exact Or.inr (Or.inl (endsNL_append_chunk o l (hnltail (by simp [hls]))))
    | base oL o bL b =>
      obtain ⟨hconfls, hP, hoL, hbL, hoNL, hom, hbm, hpend⟩ := hinv
      by_cases hmm : hasLineMarker l markMid = true
      · simp only [parseStep, hmm, if_true] at hrun
        refine parseRun_wf ls _ _ doc hchtail ?_ hrun
        exact ⟨hconfls, hP, hoL, hbL, hoNL, hom, pending_resolve b l ls hpend, hbm,
          forall_split_nil _, Or.inl rfl⟩
      · simp only [parseStep, hmm, Bool.false_eq_true, if_false] at hrun
        refine parseRun_wf ls _ _ doc hchtail ?_ hrun
        refine ⟨hconfls, hP, hoL, hbL, hoNL, hom, ?_, ?_⟩
        · intro x hx
          rw [split_append_chunk b l (pending_resolve b l ls hpend) hlchunk] at hx
          rcases List.mem_append.mp hx with hx | hx
          · exact hbm x hx
          · simp at hx
            subst hx
            simpa using hmm
        · cases hls : ls with
          | nil => exact Or.inr (Or.inr rfl)
          | cons y ys =>
            exact Or.inr (Or.inl (endsNL_append_chunk b l (hnltail (by simp [hls]))))
    | theirs oL o bL b t =>
      obtain ⟨hconfls, hP, hoL, hbL, hoNL, hom, hbNL, hbm, htm, hpend⟩ := hinv
      by_cases he : hasLineMarker l markEnd = true
      · simp only [parseStep, he, if_true] at hrun
        refine parseRun_wf ls _ _ doc hchtail ?_ hrun
        have hc : wfConflict
            { Ours := o, Base := b, Theirs := t, OursLabel := oL, BaseLabel := bL
              TheirsLabel := parseLabel l markEnd, Resolution := .unset } :=
          ⟨hoNL, hbNL, pending_resolve t l ls hpend, hom, hbm, htm, hoL, hbL,
            ⟨(parseLabel_wf l markEnd hlchunk.2).1, (parseLabel_wf l markEnd hlchunk.2).2⟩, rfl⟩
        refine ⟨pushConflict_refs acc _ hconfls, ?_, forall_split_nil _, Or.inl rfl⟩
        rcases hP with hA2 | ⟨S, tt, hSeq, hSA, htt, httnl⟩
        · exact wfSegsA_append_conflict _ _ hA2 hc
        · rw [show (pushConflict acc _).segs = acc.segs ++ [.conflict _] from rfl, hSeq,
            List.append_assoc]
          exact wfSegsA_append_text_conflict S tt _ hSA htt httnl hc
      · simp only [parseStep, he, Bool.false_eq_true, if_false] at hrun
        refine parseRun_wf ls _ _ doc hchtail ?_ hrun
        refine ⟨hconfls, hP, hoL, hbL, hoNL, hom, hbNL, hbm, ?_, ?_⟩
        · intro x hx
          rw [split_append_chunk t l (pending_resolve t l ls hpend) hlchunk] at hx
          rcases List.mem_append.mp hx with hx | hx
          · exact htm x hx
          · simp at hx
            subst hx
            simpa using he
        · cases hls : ls with
          | nil => exact Or.inr (Or.inr rfl)
          | cons y ys =>
            exact Or.inr (Or.inl (endsNL_append_chunk t l (hnltail (by simp [hls]))))

/-- Every document `Parse` produces is well-formed. -/
theorem parse_wf (data : Bytes) (doc : Document) (h : Parse data = .ok doc) : WFDoc doc := by
  refine parseRun_wf (splitLinesKeepEOL data) ⟨[], []⟩ (.text []) doc
    (chunked_splitLines data) ?_ h
  exact ⟨rfl, trivial, forall_split_nil _, Or.inl rfl⟩


/-- C4, counterexample: the strict-mode half of the round-trip claim fails.
The example input parses to a document with one conflict; after setting that
conflict's Resolution explicitly — whichever of the four canonical values is
chosen — strict rendering drops the marker lines and cannot reproduce the
input bytes. -/
theorem C4_counterexample :
    Parse exampleInput = .ok exampleDoc ∧
    RenderResolved (setConflict exampleDoc ⟨1⟩ { exampleConflict with Resolution := .ours }) ≠
      .ok exampleInput ∧
    RenderResolved (setConflict exampleDoc ⟨1⟩ { exampleConflict with Resolution := .theirs }) ≠
      .ok exampleInput ∧
    RenderResolved (setConflict exampleDoc ⟨1⟩ { exampleConflict with Resolution := .both }) ≠
      .ok exampleInput ∧
    RenderResolved (setConflict exampleDoc ⟨1⟩ { exampleConflict with Resolution := .none }) ≠
      .ok exampleInput := by decide

/-- C4, amended: the permissive round trip holds at the document level — for
every input that `Parse` accepts, re-parsing the permissive rendering of the
parsed document (whose conflicts are all left Unset by `Parse`) reproduces
that document exactly: segments byte-for-byte (Ours, Base, Theirs, labels,
segment order) and the conflict index. The strict-mode byte-identity clause
of the original claim is dropped: strict rendering of any explicitly
resolved conflict omits the markers, so it cannot reproduce an input that
contains a conflict. -/
theorem C4_amended (data : Bytes) (doc : Document) (h : Parse data = .ok doc) :
    Parse (RenderWithUnresolved doc) = .ok doc :=
  render_roundtrip doc (parse_wf data doc h)

/-- C4 witness: the round trip at the example document. -/
theorem C4_witness : Parse (RenderWithUnresolved exampleDoc) = .ok exampleDoc :=
  C4_amended exampleInput exampleDoc (by rfl)

end EC